import Mathlib

/-!
# Verification of the mobx-rest state-reconciliation layer

Shallow embedding of `src/Model.ts` (the unnamed source file defining the
`Model` class together with the module-level helpers
`getChangedAttributesBetween` / `getChangesBetween`) and of
`src/Collection.ts`.

JavaScript plain values are modelled by the inductive type `Value`
(numbers as `Int`, no floats are needed by any claim).  JS plain objects —
including the contents of the mobx `ObservableMap`s `attributes` and
`committedAttributes`, whose entries are ordered by insertion — are
modelled as ordered association lists `List (String × Value)`.
`Value.undef` models the JS value `undefined`, which the diff helpers
produce for deleted keys; `lookupV` returns it for absent keys, matching
JS property access.
-/

set_option autoImplicit false

namespace MobxRest

/-- A JavaScript plain value: `undefined`, `null`, booleans, numbers
(modelled as `Int`), strings, arrays and plain objects (ordered key/value
lists, as JS objects preserve insertion order). -/
inductive Value where
  | undef : Value
  | null : Value
  | bool : Bool → Value
  | num : Int → Value
  | str : String → Value
  | arr : List Value → Value
  | obj : List (String × Value) → Value

/-- The contents of a JS plain object / mobx observable map: an ordered
association list. -/
abbrev Fields := List (String × Value)

/-- JS property read `o[k]`: the first binding of `k`, or `undefined` when
the key is absent. -/
def lookupV : Fields → String → Value
  | [], _ => .undef
  | (k, v) :: xs, key => if k == key then v else lookupV xs key

/-- JS `k in o` / `Map.has`. -/
def hasKeyV : Fields → String → Bool
  | [], _ => false
  | (k, _) :: xs, key => k == key || hasKeyV xs key

/-- JS property write `o[k] = v` / `Map.set`: an existing key keeps its
position in the key order, a new key is appended. -/
def setKeyV : Fields → String → Value → Fields
  | [], k, v => [(k, v)]
  | (k1, v1) :: xs, k, v => if k1 == k then (k, v) :: xs else (k1, v1) :: setKeyV xs k v

/-- `ObservableMap.merge(data)` and the object spread `{ ...xs, ...data }`:
every entry of `data` is written into `xs` in order. -/
def mergeMap (xs data : Fields) : Fields :=
  data.foldl (fun acc kv => setKeyV acc kv.1 kv.2) xs

/-- JS truthiness of a value: `undefined`, `null`, `false`, `0` and `""`
are falsy, everything else (including empty arrays and objects) is truthy. -/
def truthy : Value → Bool
  | .undef => false
  | .null => false
  | .bool b => b
  | .num n => n != 0
  | .str s => s != ""
  | .arr _ => true
  | .obj _ => true

/-- `typeof v === 'number' || typeof v === 'string'` (the guard used by
`Collection.remove`). -/
def isNumOrStr : Value → Bool
  | .num _ => true
  | .str _ => true
  | _ => false

/-- lodash `isPlainObject`: true exactly for plain objects (not arrays,
not `null`, not primitives). -/
def isPlainObject : Value → Bool
  | .obj _ => true
  | _ => false

/-- deepmerge's `isMergeableObject`: plain objects and arrays. -/
def isMergeableObject : Value → Bool
  | .obj _ => true
  | .arr _ => true
  | _ => false

/-- `Object.keys`-style view of a value: the fields of a plain object,
`[]` for everything else (matching `Object.keys` on primitives/arrays as
used by deepmerge's `mergeObject`). -/
def valFields : Value → Fields
  | .obj xs => xs
  | _ => []

/-- JS strict equality `===` as used on primary-key values (numbers and
strings).  On composite values `===` is reference equality, which a pure
embedding cannot observe; all claims compare ids that are scalars, where
structural equality coincides with `===`. -/
def beqV : Value → Value → Bool
  | .undef, .undef => true
  | .null, .null => true
  | .bool a, .bool b => a == b
  | .num a, .num b => a == b
  | .str a, .str b => a == b
  | .arr [], .arr [] => true
  | .arr (x :: xs), .arr (y :: ys) => beqV x y && beqV (.arr xs) (.arr ys)
  | .obj [], .obj [] => true
  | .obj ((k, v) :: xs), .obj ((l, w) :: ys) =>
      k == l && beqV v w && beqV (.obj xs) (.obj ys)
  | _, _ => false

/-- Keep the first occurrence of every element, dropping later duplicates
(the behaviour of lodash `uniq`). -/
def dedupFirst : List String → List String
  | [] => []
  | k :: ks => k :: dedupFirst (ks.filter (fun k2 => k2 ≠ k))
termination_by l => l.length
decreasing_by
  simp only [List.length_cons]
  exact Nat.lt_succ_of_le (List.length_filter_le _ _)

/-- lodash `union(xs, ys)`: deduplicated concatenation, first occurrences
kept in order. -/
def keyUnion (xs ys : List String) : List String :=
  dedupFirst (xs ++ ys)

mutual

/-- lodash `isEqual`: deep structural equality; arrays compare elementwise
in order, objects compare as finite maps (key order irrelevant), and a key
present with value `undefined` is distinct from an absent key. -/
def isEqual : Value → Value → Bool
  | .undef, .undef => true
  | .null, .null => true
  | .bool a, .bool b => a == b
  | .num a, .num b => a == b
  | .str a, .str b => a == b
  | .arr [], .arr [] => true
  | .arr (x :: xs), .arr (y :: ys) => isEqual x y && isEqual (.arr xs) (.arr ys)
  | .obj xs, .obj ys => objSubset xs ys && ys.all (fun p => hasKeyV xs p.1)
  | _, _ => false

/-- Every binding of `xs` is present in `ys` with a deep-equal value. -/
def objSubset : Fields → Fields → Bool
  | [], _ => true
  | (k, v) :: xs, ys => hasKeyV ys k && isEqual v (lookupV ys k) && objSubset xs ys

end

/-- `getChangedAttributesBetween` from Model.ts: the keys of the union of
both key sets whose values are not lodash-`isEqual`. -/
def getChangedAttributesBetween (source target : Fields) : List String :=
  (keyUnion (source.map Prod.fst) (target.map Prod.fst)).filter
    (fun key => !isEqual (lookupV source key) (lookupV target key))

theorem sizeOf_lookupV (xs : Fields) (k : String) :
    sizeOf (lookupV xs k) ≤ sizeOf xs := by
  induction xs with
  | nil => simp [lookupV]
  | cons p xs ih =>
    obtain ⟨k1, v1⟩ := p
    simp only [lookupV]
    split
    · simp only [List.cons.sizeOf_spec, Prod.mk.sizeOf_spec]
      omega
    · simp only [List.cons.sizeOf_spec, Prod.mk.sizeOf_spec]
      omega

mutual

/-- `getChangesBetween` from Model.ts: for every changed key, recurse when
both sides hold plain objects (`changeValue`), otherwise take the target
value wholesale. -/
def getChangesBetween (source target : Fields) : Fields :=
  (getChangedAttributesBetween source target).map fun key =>
    (key, changeValue (lookupV source key) (lookupV target key))
termination_by 2 * sizeOf source + 1
decreasing_by
  have h := sizeOf_lookupV source key
  omega

/-- The per-key body of `getChangesBetween`:
`isPlainObject(source[key]) && isPlainObject(target[key]) ?
getChangesBetween(source[key], target[key]) : target[key]`. -/
def changeValue : Value → Value → Value
  | .obj s, .obj t => .obj (getChangesBetween s t)
  | _, tv => tv
termination_by sv _ => 2 * sizeOf sv
decreasing_by
  simp only [Value.obj.sizeOf_spec]
  omega

end

mutual

/-- `deepmerge(target, source, { arrayMerge: dontMergeArrays })` as
configured by `Model#applyPatchChanges`: a source array replaces the
target wholesale (`dontMergeArrays` also fires on array/array), a
type-mismatching source is cloned as-is, and otherwise the two are merged
field by field. -/
def deepmergeV : Value → Value → Value
  | _, .arr ys => .arr ys
  | .arr _, s => s
  | t, s => .obj (mergeInto t (if isMergeableObject t then valFields t else []) (valFields s))
termination_by t s => sizeOf t + sizeOf s + 1
decreasing_by
  have h : sizeOf (valFields s) ≤ sizeOf s := by
    cases s <;> simp [valFields]
  omega

/-- deepmerge's `mergeObject` loop over the source keys: a key that is on
the target with a mergeable source value is merged recursively, any other
key is written as-is. -/
def mergeInto (t : Value) : Fields → Fields → Fields
  | dest, [] => dest
  | dest, (k, sv) :: rest =>
      mergeInto t
        (if hasKeyV (valFields t) k && isMergeableObject sv then
          setKeyV dest k (deepmergeV (lookupV (valFields t) k) sv)
        else setKeyV dest k sv) rest
termination_by _ src => sizeOf t + sizeOf src
decreasing_by
  · have h1 : sizeOf (lookupV (valFields t) k) ≤ sizeOf (valFields t) :=
      sizeOf_lookupV _ _
    have h2 : sizeOf (valFields t) ≤ sizeOf t := by
      cases t <;> simp [valFields]
    simp only [List.cons.sizeOf_spec, Prod.mk.sizeOf_spec]
    omega
  · simp only [List.cons.sizeOf_spec, Prod.mk.sizeOf_spec]
    omega

end

/-- `Model#applyPatchChanges(oldAttributes, changes)`: deepmerge of the two
plain objects (destination starts as a copy of `oldAttributes`). -/
def applyPatchChanges (oldAttributes changes : Fields) : Fields :=
  mergeInto (.obj oldAttributes) oldAttributes changes

/-- The state of a `Model` instance: the two observable attribute maps and
the construction-time `optimisticId` (lodash `uniqueId('i_')`).  The
`collection` back-reference and `defaultAttributes` are not part of the
state needed by the claims; the owning collection is passed explicitly to
the operations that use it. -/
structure Model where
  attributes : Fields
  committedAttributes : Fields
  optimisticId : String

namespace Model

/-- `Model#toJS()`: the working attributes as a plain object. -/
def toJS (m : Model) : Fields :=
  m.attributes

/-- `Model#has(attribute)`. -/
def has (m : Model) (attr : String) : Bool :=
  hasKeyV m.attributes attr

/-- `Model#get(attribute)`.  The source throws when the attribute is
absent; every use below occurs under a `has` guard, so the embedding
returns the raw lookup (which is `undef` exactly in the throwing case). -/
def get (m : Model) (attr : String) : Value :=
  lookupV m.attributes attr

/-- `Model#isNew`: no primary-key attribute, or a falsy one.  `pk` is the
configurable `primaryKey` getter (default `"id"`). -/
def isNew (pk : String) (m : Model) : Bool :=
  !m.has pk || !truthy (m.get pk)

/-- `Model#id`: the primary-key attribute if present, else the
`optimisticId`. -/
def id (pk : String) (m : Model) : Value :=
  if m.has pk then m.get pk else .str m.optimisticId

/-- `Model#changedAttributes`. -/
def changedAttributes (m : Model) : List String :=
  getChangedAttributesBetween m.committedAttributes m.attributes

/-- `Model#changes`. -/
def changes (m : Model) : Fields :=
  getChangesBetween m.committedAttributes m.attributes

/-- `Model#hasChanges(attribute?)`. -/
def hasChanges (m : Model) (attr : Option String) : Bool :=
  match attr with
  | some a => m.changedAttributes.contains a
  | none => decide (0 < m.changedAttributes.length)

/-- `Model#commitChanges()`. -/
def commitChanges (m : Model) : Model :=
  { m with committedAttributes := m.attributes }

/-- `Model#discardChanges()`. -/
def discardChanges (m : Model) : Model :=
  { m with attributes := m.committedAttributes }

/-- `Model#set(data)`: `attributes.merge(data)`. -/
def set (m : Model) (data : Fields) : Model :=
  { m with attributes := mergeMap m.attributes data }

/-- JS truthiness of `urlRoot` (a string or `null`). -/
def strTruthy : Option String → Bool
  | none => false
  | some s => s != ""

/-- JS string conversion as used by the template literal in `Model#url`.
Ids are numbers or strings in every claim; the array case (JS joins
elements) is left as the empty string since no claim exercises it. -/
def valueToString : Value → String
  | .num n => toString n
  | .str s => s
  | .bool b => if b then "true" else "false"
  | .null => "null"
  | .undef => "undefined"
  | .arr _ => ""
  | .obj _ => "[object Object]"

/-- `Model#url()`: `urlRoot()`, falling back to the owning collection's
`url()`, then the primary key appended unless the model is new.  The two
`Option String` arguments are the results of the `urlRoot()` resolver and
of `collection.url()` (absent when there is no collection). -/
def url (pk : String) (m : Model) (urlRootResult collectionUrlResult : Option String) :
    Except String String :=
  let urlRoot1 := urlRootResult
  let urlRoot2 :=
    if !strTruthy urlRoot1 && collectionUrlResult.isSome then collectionUrlResult else urlRoot1
  if !strTruthy urlRoot2 then .error "implement urlRoot method or url on the collection"
  else if isNew pk m then .ok (urlRoot2.getD "")
  else .ok (urlRoot2.getD "" ++ "/" ++ valueToString (m.get pk))

/-- The payload selection of `Model#save` (lines computing `data`), as a
function of the state at entry: `attributes` is the optional explicit
argument, `patch` the option flag. -/
def savePayload (pk : String) (m : Model) (attributes : Option Fields) (patch : Bool) : Fields :=
  if patch && attributes.isSome && !isNew pk m then attributes.getD []
  else if patch && !isNew pk m then m.changes
  else mergeMap m.attributes (attributes.getD [])

/-- The HTTP verb selection of `Model#save`. -/
def saveMethod (pk : String) (m : Model) (patch : Bool) : String :=
  if isNew pk m then "post" else if patch then "patch" else "put"

/-- The optimistic-apply step of `Model#save`
(`if (optimistic && attributes) this.set(...)`), acting on the state at
entry, whose working attributes are the `currentAttributes` snapshot. -/
def saveOptimisticUpdate (m : Model) (attributes : Option Fields) (optimistic patch : Bool) :
    Model :=
  match attributes with
  | some attrs =>
      if optimistic then m.set (if patch then applyPatchChanges m.attributes attrs else attrs)
      else m
  | none => m

/-- The success continuation of `Model#save`: `currentAttributes` is the
snapshot taken at call time, `m` the state when the response arrives,
`data` the response body. -/
def saveSuccess (currentAttributes : Fields) (m : Model) (data : Fields) (keepChanges : Bool) :
    Model :=
  let flightChanges := getChangesBetween currentAttributes m.attributes
  let m1 := (m.set data).commitChanges
  if keepChanges then m1.set (applyPatchChanges data flightChanges) else m1

/-- The failure continuation of `Model#save`:
`this.set(currentAttributes)`. -/
def saveFailure (currentAttributes : Fields) (m : Model) : Model :=
  m.set currentAttributes

end Model

/-- Reference equality of model instances (`===` on objects), observed
through the state: inside one collection every model is a distinct
instance, and the claims below identify an instance by its full state
(the fresh `optimisticId` separates otherwise equal states). -/
def beqModel (a b : Model) : Bool :=
  beqV (.obj a.attributes) (.obj b.attributes) &&
    beqV (.obj a.committedAttributes) (.obj b.committedAttributes) &&
      a.optimisticId == b.optimisticId

namespace Collection

/-- `Collection#_ids()`: the member ids with falsy ones dropped
(`.filter(Boolean)`). -/
def ids (pk : String) (models : List Model) : List Value :=
  (models.map (Model.id pk)).filter truthy

/-- `Collection#get(id)`: first member whose id is strictly equal. -/
def getById (pk : String) (models : List Model) (idv : Value) : Option Model :=
  models.find? fun item => beqV (Model.id pk item) idv

/-- lodash `difference(xs, ys)`: the elements of `xs` not present in
`ys`. -/
def difference (xs ys : List Value) : List Value :=
  xs.filter fun x => !(ys.any fun y => beqV x y)

/-- One step of `Collection#remove` for a number-or-string id: the first
member with that id is spliced out; when none matches only a console
warning happens. -/
def removeById (pk : String) : List Model → Value → List Model
  | [], _ => []
  | m :: ms, idv => if beqV (Model.id pk m) idv then ms else m :: removeById pk ms idv

/-- `Collection#remove(ids)` for a list of id values: ids that are not
numbers or strings (and are not owned model instances) only produce a
warning. -/
def removeIds (pk : String) (models : List Model) (idsToRemove : List Value) : List Model :=
  idsToRemove.foldl (fun acc idv => if isNumOrStr idv then removeById pk acc idv else acc) models

/-- `Collection#remove(model)` for an owned model instance: splice at
`indexOf`, i.e. drop the first occurrence. -/
def removeModel : List Model → Model → List Model
  | [], _ => []
  | x :: xs, m => if beqModel x m then xs else x :: removeModel xs m

/-- `Collection#build(attributes)` for raw attributes: a fresh model whose
constructor merges the (empty) default attributes with `attributes` and
commits; `uid` numbers the lodash `uniqueId('i_')` counter. -/
def build (r : Fields) (uid : Nat) : Model :=
  { attributes := r, committedAttributes := r, optimisticId := "i_" ++ toString uid }

/-- Replace the first member satisfying `p` by its image under `f`
(`model.set(resource)` mutates the member found by `get` in place). -/
def updateFirst (p : Model → Bool) (f : Model → Model) : List Model → List Model
  | [] => []
  | x :: xs => if p x then f x :: xs else x :: updateFirst p f xs

/-- The member list together with the `uniqueId` counter, threaded through
`Collection#set` so that freshly built members get distinct optimistic
ids. -/
structure SetAcc where
  models : List Model
  nextUid : Nat

/-- The per-resource body of `Collection#set`: look the resource up by its
literal `id` field, merge on a hit when `change` is enabled, append a
fresh member on a miss when `add` is enabled. -/
def setStep (pk : String) (addF changeF : Bool) (acc : SetAcc) (r : Fields) : SetAcc :=
  let rid := lookupV r "id"
  if (getById pk acc.models rid).isSome then
    if changeF then
      { acc with
        models :=
          updateFirst (fun item => beqV (Model.id pk item) rid)
            (fun m => m.set r) acc.models }
    else acc
  else if addF then
    { models := acc.models ++ [build r acc.nextUid], nextUid := acc.nextUid + 1 }
  else acc

/-- `Collection#set(resources, {add, change, remove})`: the reconciliation
algorithm.  Note that the stale-id computation and the per-resource lookup
read the literal `id` property of each resource (`r.id`, `resource.id`),
while member ids go through the configurable `primaryKey`. -/
def set (pk : String) (uid0 : Nat) (models : List Model) (resources : List Fields)
    (addF changeF removeF : Bool) : SetAcc :=
  let models1 :=
    if removeF then
      let incoming := resources.map fun r => lookupV r "id"
      let toRemove := difference (ids pk models) incoming
      if toRemove.length != 0 then removeIds pk models toRemove else models
    else models
  resources.foldl (setStep pk addF changeF) ⟨models1, uid0⟩

end Collection

namespace Model

/-- The observable outcomes of `Model#destroy({optimistic})` on a model
whose owning collection currently holds `collection` (or is absent):
the member list right after `destroy` returns (before the DELETE
settles), the member list after the promise resolves, the member list
after it rejects, and whether a DELETE was issued at all. -/
structure DestroyOutcome where
  immediate : Option (List Model)
  afterSuccess : Option (List Model)
  afterFailure : Option (List Model)
  requested : Bool

/-- `Model#destroy({optimistic})`. -/
def destroy (pk : String) (m : Model) (collection : Option (List Model)) (optimistic : Bool) :
    DestroyOutcome :=
  match collection with
  | some c =>
      if isNew pk m then
        let c1 := Collection.removeModel c m
        { immediate := some c1, afterSuccess := some c1, afterFailure := some c1,
          requested := false }
      else
        let c1 := if optimistic then Collection.removeModel c m else c
        { immediate := some c1,
          afterSuccess := some (if !optimistic then Collection.removeModel c1 m else c1),
          afterFailure := some (if optimistic then c1 ++ [m] else c1),
          requested := true }
  | none =>
      { immediate := none, afterSuccess := none, afterFailure := none,
        requested := !isNew pk m }

end Model

/-! ## Well-formedness predicates

JS plain objects cannot carry duplicate keys, and plain data decoded from
JSON never stores the value `undefined`.  The following computable
predicates capture those facts about an embedded value; theorems about
arbitrary states assume them where the corresponding JS fact is needed. -/

/-- Top-level duplicate-free keys of an object's field list. -/
def nodupKeys : Fields → Bool
  | [] => true
  | (k, _) :: xs => !hasKeyV xs k && nodupKeys xs

mutual

/-- Recursively duplicate-free keys in every nested object. -/
def wellKeyedV : Value → Bool
  | .arr [] => true
  | .arr (x :: xs) => wellKeyedV x && wellKeyedV (.arr xs)
  | .obj xs => wellKeyedFields xs
  | _ => true
termination_by v => sizeOf v
decreasing_by all_goals (simp only [Value.arr.sizeOf_spec, Value.obj.sizeOf_spec,
  List.cons.sizeOf_spec]; omega)

/-- `wellKeyedV` on every field of an object, with duplicate-free keys. -/
def wellKeyedFields : Fields → Bool
  | [] => true
  | (k, v) :: xs => !hasKeyV xs k && wellKeyedV v && wellKeyedFields xs
termination_by xs => sizeOf xs
decreasing_by all_goals (simp only [List.cons.sizeOf_spec, Prod.mk.sizeOf_spec]; omega)

end

mutual

/-- The value `undefined` does not occur anywhere inside. -/
def noUndefV : Value → Bool
  | .undef => false
  | .arr [] => true
  | .arr (x :: xs) => noUndefV x && noUndefV (.arr xs)
  | .obj xs => noUndefFields xs
  | _ => true
termination_by v => sizeOf v
decreasing_by all_goals (simp only [Value.arr.sizeOf_spec, Value.obj.sizeOf_spec,
  List.cons.sizeOf_spec]; omega)

/-- `noUndefV` on every field value. -/
def noUndefFields : Fields → Bool
  | [] => true
  | (_, v) :: xs => noUndefV v && noUndefFields xs
termination_by xs => sizeOf xs
decreasing_by all_goals (simp only [List.cons.sizeOf_spec, Prod.mk.sizeOf_spec]; omega)

end

mutual

/-- No deletions from `xs` to `ys`: every key of `xs` is present in `ys`,
recursively at the positions where `getChangesBetween` recurses (both
values plain objects). -/
def noDelFields : Fields → Fields → Bool
  | [], _ => true
  | (k, v) :: xs, ys => hasKeyV ys k && noDelValue v (lookupV ys k) && noDelFields xs ys
termination_by xs _ => sizeOf xs
decreasing_by all_goals (simp only [List.cons.sizeOf_spec, Prod.mk.sizeOf_spec]; omega)

/-- `noDelFields` lifted to a pair of values: constraining only
object/object pairs. -/
def noDelValue : Value → Value → Bool
  | .obj s, .obj t => noDelFields s t
  | _, _ => true
termination_by v _ => sizeOf v
decreasing_by simp only [Value.obj.sizeOf_spec]; omega

end

/-! ## Association-list lemmas -/

@[simp] theorem lookupV_nil (k : String) : lookupV [] k = .undef := rfl

@[simp] theorem lookupV_cons (k1 : String) (v1 : Value) (xs : Fields) (k : String) :
    lookupV ((k1, v1) :: xs) k = if k1 == k then v1 else lookupV xs k := rfl

@[simp] theorem hasKeyV_nil (k : String) : hasKeyV [] k = false := rfl

@[simp] theorem hasKeyV_cons (k1 : String) (v1 : Value) (xs : Fields) (k : String) :
    hasKeyV ((k1, v1) :: xs) k = (k1 == k || hasKeyV xs k) := rfl

theorem lookupV_eq_undef_of_not_hasKeyV {xs : Fields} {k : String} (h : hasKeyV xs k = false) :
    lookupV xs k = .undef := by
  induction xs with
  | nil => rfl
  | cons p xs ih =>
    obtain ⟨k1, v1⟩ := p
    simp only [hasKeyV_cons, Bool.or_eq_false_iff] at h
    simp [lookupV, h.1, ih h.2]

theorem hasKeyV_of_lookupV_ne_undef {xs : Fields} {k : String} (h : lookupV xs k ≠ .undef) :
    hasKeyV xs k = true := by
  by_contra hc
  exact h (lookupV_eq_undef_of_not_hasKeyV (Bool.eq_false_iff.mpr hc))

theorem hasKeyV_append (xs ys : Fields) (k : String) :
    hasKeyV (xs ++ ys) k = (hasKeyV xs k || hasKeyV ys k) := by
  induction xs with
  | nil => simp
  | cons p xs ih => obtain ⟨k1, v1⟩ := p; simp [ih, Bool.or_assoc]

theorem lookupV_append_left {xs : Fields} {k : String} (h : hasKeyV xs k = true) (ys : Fields) :
    lookupV (xs ++ ys) k = lookupV xs k := by
  induction xs with
  | nil => simp at h
  | cons p xs ih =>
    obtain ⟨k1, v1⟩ := p
    simp only [hasKeyV_cons, Bool.or_eq_true] at h
    rcases h with h | h
    · simp [lookupV, h]
    · by_cases hk : k1 == k <;> simp [lookupV, hk, ih h]

theorem lookupV_append_right {xs : Fields} {k : String} (h : hasKeyV xs k = false)
    (ys : Fields) : lookupV (xs ++ ys) k = lookupV ys k := by
  induction xs with
  | nil => simp
  | cons p xs ih =>
    obtain ⟨k1, v1⟩ := p
    simp only [hasKeyV_cons, Bool.or_eq_false_iff] at h
    simp [lookupV, h.1, ih h.2]

theorem hasKeyV_setKeyV (xs : Fields) (k : String) (v : Value) (k2 : String) :
    hasKeyV (setKeyV xs k v) k2 = (k == k2 || hasKeyV xs k2) := by
  induction xs with
  | nil => simp [setKeyV]
  | cons p xs ih =>
    obtain ⟨k1, v1⟩ := p
    by_cases h1 : k1 == k
    · have h1' : k1 = k := by simpa using h1
      subst h1'
      simp [setKeyV]
    · simp only [setKeyV, h1, if_false, hasKeyV_cons, ih]
      by_cases h2 : k1 == k2 <;> by_cases h3 : k == k2 <;> simp_all

theorem lookupV_setKeyV_self (xs : Fields) (k : String) (v : Value) :
    lookupV (setKeyV xs k v) k = v := by
  induction xs with
  | nil => simp [setKeyV]
  | cons p xs ih =>
    obtain ⟨k1, v1⟩ := p
    by_cases h1 : k1 == k
    · simp [setKeyV, h1]
    · simp [setKeyV, h1, ih]

theorem lookupV_setKeyV_ne (xs : Fields) {k : String} (v : Value) {k2 : String}
    (hne : (k == k2) = false) : lookupV (setKeyV xs k v) k2 = lookupV xs k2 := by
  induction xs with
  | nil => simp [setKeyV, hne]
  | cons p xs ih =>
    obtain ⟨k1, v1⟩ := p
    by_cases h1 : k1 == k
    · have h1' : k1 = k := by simpa using h1
      subst h1'
      simp [setKeyV, hne]
    · by_cases h2 : k1 == k2 <;> simp [setKeyV, h1, h2, ih]

theorem hasKeyV_mergeMap (xs data : Fields) (k : String) :
    hasKeyV (mergeMap xs data) k = (hasKeyV xs k || hasKeyV data k) := by
  induction data generalizing xs with
  | nil => simp [mergeMap]
  | cons p rest ih =>
    obtain ⟨k1, v1⟩ := p
    show hasKeyV (mergeMap (setKeyV xs k1 v1) rest) k = _
    rw [ih, hasKeyV_setKeyV]
    simp only [hasKeyV_cons]
    by_cases h : k1 == k <;> simp [h, Bool.or_assoc, Bool.or_comm]

theorem lookupV_mergeMap_of_not_hasKey {data : Fields} (xs : Fields) {k : String}
    (h : hasKeyV data k = false) :
    lookupV (mergeMap xs data) k = lookupV xs k := by
  induction data generalizing xs with
  | nil => simp [mergeMap]
  | cons p rest ih =>
    obtain ⟨k1, v1⟩ := p
    simp only [hasKeyV_cons, Bool.or_eq_false_iff] at h
    show lookupV (mergeMap (setKeyV xs k1 v1) rest) k = _
    rw [ih _ h.2, lookupV_setKeyV_ne _ _ h.1]

theorem lookupV_mergeMap_of_hasKey {data : Fields} (hnd : nodupKeys data = true)
    (xs : Fields) {k : String} (h : hasKeyV data k = true) :
    lookupV (mergeMap xs data) k = lookupV data k := by
  induction data generalizing xs with
  | nil => simp at h
  | cons p rest ih =>
    obtain ⟨k1, v1⟩ := p
    simp only [nodupKeys, Bool.and_eq_true, Bool.not_eq_true'] at hnd
    show lookupV (mergeMap (setKeyV xs k1 v1) rest) k = _
    by_cases hk : k1 == k
    · have hk' : k1 = k := by simpa using hk
      subst hk'
      rw [lookupV_mergeMap_of_not_hasKey _ hnd.1, lookupV_setKeyV_self]
      simp [lookupV]
    · simp only [hasKeyV_cons, Bool.or_eq_true] at h
      rcases h with h | h
      · simp_all
      · rw [ih hnd.2 _ h]
        simp [lookupV, hk]

theorem hasKeyV_of_mem {xs : Fields} {k : String} {v : Value} (h : (k, v) ∈ xs) :
    hasKeyV xs k = true := by
  induction xs with
  | nil => simp at h
  | cons p xs ih =>
    obtain ⟨k1, v1⟩ := p
    rcases List.mem_cons.mp h with h | h
    · injection h with h1 h2
      subst h1
      simp
    · simp [ih h]

theorem hasKeyV_iff_mem_keys {xs : Fields} {k : String} :
    hasKeyV xs k = true ↔ k ∈ xs.map Prod.fst := by
  induction xs with
  | nil => simp
  | cons p xs ih =>
    obtain ⟨k1, v1⟩ := p
    simp only [hasKeyV_cons, Bool.or_eq_true, List.map_cons, List.mem_cons, ih, beq_iff_eq]
    constructor
    · rintro (h | h)
      exacts [Or.inl h.symm, Or.inr h]
    · rintro (h | h)
      exacts [Or.inl h.symm, Or.inr h]

theorem lookupV_of_mem_nodup {xs : Fields} (hnd : nodupKeys xs = true) {k : String} {v : Value}
    (h : (k, v) ∈ xs) : lookupV xs k = v := by
  induction xs with
  | nil => simp at h
  | cons p xs ih =>
    obtain ⟨k1, v1⟩ := p
    simp only [nodupKeys, Bool.and_eq_true, Bool.not_eq_true'] at hnd
    rcases List.mem_cons.mp h with h | h
    · injection h with h1 h2
      subst h1
      subst h2
      simp [lookupV]
    · have hne : (k1 == k) = false := by
        rw [Bool.eq_false_iff]
        intro hc
        have hk1 : k1 = k := by simpa using hc
        subst hk1
        exact absurd (hasKeyV_of_mem h) (by simp [hnd.1])
      simp [lookupV, hne, ih hnd.2 h]

/-! ## Key-union lemmas -/

theorem mem_dedupFirst {a : String} : ∀ {l : List String}, a ∈ dedupFirst l ↔ a ∈ l := by
  intro l
  induction l using dedupFirst.induct with
  | case1 => simp [dedupFirst]
  | case2 k ks ih =>
    rw [dedupFirst]
    by_cases h : a = k
    · subst h
      simp
    · simp only [List.mem_cons, ih, List.mem_filter, h, false_or]
      simp [h]

theorem nodup_dedupFirst : ∀ (l : List String), (dedupFirst l).Nodup := by
  intro l
  induction l using dedupFirst.induct with
  | case1 => simp [dedupFirst]
  | case2 k ks ih =>
    rw [dedupFirst]
    refine List.nodup_cons.mpr ⟨fun hmem => ?_, ih⟩
    have := List.mem_filter.mp (mem_dedupFirst.mp hmem)
    simp at this

theorem mem_keyUnion {a : String} {xs ys : List String} :
    a ∈ keyUnion xs ys ↔ a ∈ xs ∨ a ∈ ys := by
  rw [keyUnion, mem_dedupFirst, List.mem_append]

theorem nodup_keyUnion (xs ys : List String) : (keyUnion xs ys).Nodup :=
  nodup_dedupFirst _

/-! ## Well-formedness helper lemmas -/

theorem wellKeyedV_obj {xs : Fields} : wellKeyedV (.obj xs) = wellKeyedFields xs := by
  simp [wellKeyedV]

theorem wellKeyedFields_nodupKeys {xs : Fields} (h : wellKeyedFields xs = true) :
    nodupKeys xs = true := by
  induction xs with
  | nil => rfl
  | cons p xs ih =>
    obtain ⟨k, v⟩ := p
    simp only [wellKeyedFields, Bool.and_eq_true] at h
    simp only [nodupKeys, Bool.and_eq_true]
    exact ⟨h.1.1, ih h.2⟩

theorem wellKeyedV_lookupV {xs : Fields} (h : wellKeyedFields xs = true) (k : String) :
    wellKeyedV (lookupV xs k) = true := by
  induction xs with
  | nil => simp [lookupV, wellKeyedV]
  | cons p xs ih =>
    obtain ⟨k1, v1⟩ := p
    simp only [wellKeyedFields, Bool.and_eq_true] at h
    by_cases hk : k1 == k <;> simp [lookupV, hk, h.1.2, ih h.2]

theorem wellKeyedV_of_mem {xs : Fields} (h : wellKeyedFields xs = true) {k : String} {v : Value}
    (hm : (k, v) ∈ xs) : wellKeyedV v = true := by
  induction xs with
  | nil => simp at hm
  | cons p xs ih =>
    obtain ⟨k1, v1⟩ := p
    simp only [wellKeyedFields, Bool.and_eq_true] at h
    rcases List.mem_cons.mp hm with hm | hm
    · injection hm with h1 h2
      subst h2
      exact h.1.2
    · exact ih h.2 hm

theorem noUndefV_lookupV {xs : Fields} (h : noUndefFields xs = true) {k : String}
    (hk : hasKeyV xs k = true) : noUndefV (lookupV xs k) = true := by
  induction xs with
  | nil => simp at hk
  | cons p xs ih =>
    obtain ⟨k1, v1⟩ := p
    simp only [noUndefFields, Bool.and_eq_true] at h
    by_cases hkk : k1 == k
    · simp [lookupV, hkk, h.1]
    · have hk2 : hasKeyV xs k = true := by
        simp only [hasKeyV_cons, Bool.or_eq_true] at hk
        rcases hk with hk | hk
        · simp [hk] at hkk
        · exact hk
      simp [lookupV, hkk, ih h.2 hk2]

theorem lookupV_ne_undef_of_noUndef {xs : Fields} (h : noUndefFields xs = true) {k : String}
    (hk : hasKeyV xs k = true) : lookupV xs k ≠ .undef := by
  intro hc
  have h2 := noUndefV_lookupV h hk
  rw [hc] at h2
  simp [noUndefV] at h2

theorem noUndefV_of_mem {xs : Fields} (h : noUndefFields xs = true) {k : String} {v : Value}
    (hm : (k, v) ∈ xs) : noUndefV v = true := by
  induction xs with
  | nil => simp at hm
  | cons p xs ih =>
    obtain ⟨k1, v1⟩ := p
    simp only [noUndefFields, Bool.and_eq_true] at h
    rcases List.mem_cons.mp hm with hm | hm
    · injection hm with h1 h2
      subst h2
      exact h.1
    · exact ih h.2 hm

/-! ## isEqual lemmas -/

theorem objSubset_intro {xs ys : Fields}
    (h : ∀ p ∈ xs, hasKeyV ys p.1 = true ∧ isEqual p.2 (lookupV ys p.1) = true) :
    objSubset xs ys = true := by
  induction xs with
  | nil => simp [objSubset]
  | cons p xs ih =>
    obtain ⟨k, v⟩ := p
    have hp := h (k, v) (List.mem_cons_self _ _)
    simp only [objSubset, Bool.and_eq_true]
    exact ⟨⟨hp.1, hp.2⟩, ih fun q hq => h q (List.mem_cons_of_mem _ hq)⟩

theorem objSubset_elim {xs ys : Fields} (h : objSubset xs ys = true) :
    ∀ p ∈ xs, hasKeyV ys p.1 = true ∧ isEqual p.2 (lookupV ys p.1) = true := by
  induction xs with
  | nil => simp
  | cons p xs ih =>
    obtain ⟨k, v⟩ := p
    simp only [objSubset, Bool.and_eq_true] at h
    intro q hq
    rcases List.mem_cons.mp hq with hq | hq
    · subst hq
      exact ⟨h.1.1, h.1.2⟩
    · exact ih h.2 q hq

theorem isEqual_refl_aux : ∀ (a b : Value), wellKeyedV a = true → a = b →
    isEqual a b = true := by
  refine isEqual.induct
    (fun a b => wellKeyedV a = true → a = b → isEqual a b = true)
    (fun xs ys => wellKeyedFields xs = true →
      (∀ p ∈ xs, hasKeyV ys p.1 = true ∧ lookupV ys p.1 = p.2) →
        objSubset xs ys = true)
    ?_ ?_ ?_ ?_ ?_ ?_ ?_ ?_ ?_ ?_ ?_
  · simp [isEqual]
  · simp [isEqual]
  · intro a b _ heq
    injection heq with h1
    subst h1
    simp [isEqual]
  · intro a b _ heq
    injection heq with h1
    subst h1
    simp [isEqual]
  · intro a b _ heq
    injection heq with h1
    subst h1
    simp [isEqual]
  · simp [isEqual]
  · intro x xs y ys ih1 ih2 h heq
    have h12 : x = y ∧ xs = ys := by
      simpa using heq
    obtain ⟨h1, h2⟩ := h12
    subst h1
    subst h2
    simp only [wellKeyedV, Bool.and_eq_true] at h
    simp only [isEqual, Bool.and_eq_true]
    exact ⟨ih1 h.1 rfl, ih2 h.2 rfl⟩
  · intro xs ys ih h heq
    obtain rfl : xs = ys := by simpa using heq
    rw [wellKeyedV_obj] at h
    have hnd := wellKeyedFields_nodupKeys h
    simp only [isEqual, Bool.and_eq_true]
    constructor
    · exact ih h fun p hp => ⟨hasKeyV_of_mem hp, lookupV_of_mem_nodup hnd hp⟩
    · rw [List.all_eq_true]
      exact fun p hp => hasKeyV_of_mem hp
  · intro x y hc1 hc2 hc3 hc4 hc5 hc6 hc7 hc8 _ heq
    subst heq
    exfalso
    cases x with
    | undef => exact hc1 rfl rfl
    | null => exact hc2 rfl rfl
    | bool b => exact hc3 b b rfl rfl
    | num n => exact hc4 n n rfl rfl
    | str s => exact hc5 s s rfl rfl
    | arr l =>
      cases l with
      | nil => exact hc6 rfl rfl
      | cons a l2 => exact hc7 a l2 a l2 rfl rfl
    | obj l => exact hc8 l l rfl rfl
  · intro ys _ _
    simp [objSubset]
  · intro k v xs ys ih1 ih2 hwk hmem
    simp only [wellKeyedFields, Bool.and_eq_true] at hwk
    have hp := hmem (k, v) (List.mem_cons_self _ _)
    simp only [objSubset, Bool.and_eq_true]
    exact ⟨⟨hp.1, ih1 hwk.1.2 hp.2.symm⟩,
      ih2 hwk.2 fun q hq => hmem q (List.mem_cons_of_mem _ hq)⟩

theorem isEqual_refl {v : Value} (h : wellKeyedV v = true) : isEqual v v = true :=
  isEqual_refl_aux v v h rfl

theorem isEqual_undef_left {v : Value} : isEqual .undef v = true ↔ v = .undef := by
  cases v <;> simp [isEqual.eq_def]

/-! ## Diff lemmas -/

theorem mem_getChangedAttributesBetween {source target : Fields} {k : String} :
    k ∈ getChangedAttributesBetween source target ↔
      ((hasKeyV source k = true ∨ hasKeyV target k = true) ∧
        isEqual (lookupV source k) (lookupV target k) = false) := by
  unfold getChangedAttributesBetween
  rw [List.mem_filter, mem_keyUnion]
  simp [hasKeyV_iff_mem_keys]

theorem nodup_getChangedAttributesBetween (source target : Fields) :
    (getChangedAttributesBetween source target).Nodup :=
  (nodup_keyUnion _ _).filter _

theorem nodupKeys_iff {xs : Fields} : nodupKeys xs = true ↔ (xs.map Prod.fst).Nodup := by
  induction xs with
  | nil => simp [nodupKeys]
  | cons p xs ih =>
    obtain ⟨k, v⟩ := p
    simp only [nodupKeys, Bool.and_eq_true, Bool.not_eq_true', List.map_cons, List.nodup_cons,
      ih, ← hasKeyV_iff_mem_keys]
    constructor
    · rintro ⟨h1, h2⟩
      exact ⟨by simp [h1], h2⟩
    · rintro ⟨h1, h2⟩
      exact ⟨by simpa using h1, h2⟩

theorem hasKeyV_map_key {l : List String} (f : String → Value) (k : String) :
    hasKeyV (l.map fun key => (key, f key)) k = decide (k ∈ l) := by
  induction l with
  | nil => simp
  | cons a l ih =>
    by_cases h : k = a
    · subst h
      simp
    · have hne : (a == k) = false := by simp [Ne.symm h]
      simp [hne, ih, h]

theorem lookupV_map_key {l : List String} (f : String → Value) (k : String) :
    lookupV (l.map fun key => (key, f key)) k = if k ∈ l then f k else .undef := by
  induction l with
  | nil => simp
  | cons a l ih =>
    by_cases h : k = a
    · subst h
      simp
    · have hne : (a == k) = false := by simp [Ne.symm h]
      simp only [List.map_cons, lookupV_cons, hne, if_false, ih, List.mem_cons]
      simp [h]

theorem hasKeyV_getChangesBetween (source target : Fields) (k : String) :
    hasKeyV (getChangesBetween source target) k =
      decide (k ∈ getChangedAttributesBetween source target) := by
  rw [getChangesBetween]
  exact hasKeyV_map_key _ _

theorem lookupV_getChangesBetween (source target : Fields) (k : String) :
    lookupV (getChangesBetween source target) k =
      if k ∈ getChangedAttributesBetween source target then
        changeValue (lookupV source k) (lookupV target k)
      else .undef := by
  rw [getChangesBetween]
  exact lookupV_map_key _ _

theorem nodupKeys_getChangesBetween (source target : Fields) :
    nodupKeys (getChangesBetween source target) = true := by
  rw [nodupKeys_iff, getChangesBetween]
  have : ((getChangedAttributesBetween source target).map fun key =>
      ((key, changeValue (lookupV source key) (lookupV target key)) : String × Value)).map
        Prod.fst = getChangedAttributesBetween source target := by
    rw [List.map_map]
    exact List.map_id _
  rw [this]
  exact nodup_getChangedAttributesBetween _ _

theorem getChangedAttributesBetween_self {xs : Fields} (h : wellKeyedFields xs = true) :
    getChangedAttributesBetween xs xs = [] := by
  unfold getChangedAttributesBetween
  rw [List.filter_eq_nil_iff]
  intro k _
  simp [isEqual_refl (wellKeyedV_lookupV h k)]

theorem wellKeyedFields_setKeyV {xs : Fields} (hxs : wellKeyedFields xs = true) {v : Value}
    (hv : wellKeyedV v = true) (k : String) : wellKeyedFields (setKeyV xs k v) = true := by
  induction xs with
  | nil => simp [setKeyV, wellKeyedFields, hv]
  | cons p xs ih =>
    obtain ⟨k1, v1⟩ := p
    simp only [wellKeyedFields, Bool.and_eq_true, Bool.not_eq_true'] at hxs
    by_cases hk : k1 == k
    · have hk1 : k1 = k := by simpa using hk
      subst hk1
      simp only [setKeyV, hk]
      simp only [if_true, wellKeyedFields, Bool.and_eq_true, Bool.not_eq_true']
      exact ⟨⟨hxs.1.1, hv⟩, hxs.2⟩
    · simp only [setKeyV, hk, Bool.false_eq_true, if_false]
      simp only [wellKeyedFields, Bool.and_eq_true, Bool.not_eq_true']
      have hne : (k == k1) = false := by
        rw [Bool.eq_false_iff]
        intro hc
        have : k = k1 := by simpa using hc
        subst this
        simp at hk
      refine ⟨⟨?_, hxs.1.2⟩, ih hxs.2⟩
      rw [hasKeyV_setKeyV, hne, Bool.false_or]
      exact hxs.1.1

theorem wellKeyedFields_mergeMap {xs data : Fields} (hxs : wellKeyedFields xs = true)
    (hdata : wellKeyedFields data = true) : wellKeyedFields (mergeMap xs data) = true := by
  induction data generalizing xs with
  | nil => exact hxs
  | cons p rest ih =>
    obtain ⟨k1, v1⟩ := p
    simp only [wellKeyedFields, Bool.and_eq_true, Bool.not_eq_true'] at hdata
    show wellKeyedFields (mergeMap (setKeyV xs k1 v1) rest) = true
    exact ih (wellKeyedFields_setKeyV hxs hdata.1.2 k1) hdata.2

/-! ## Strict-equality lemmas -/

theorem beqV_refl_aux (a b : Value) : a = b → beqV a b = true := by
  induction a, b using beqV.induct with
  | case1 => simp [beqV]
  | case2 => simp [beqV]
  | case3 a b =>
    intro heq
    injection heq with h1
    subst h1
    simp [beqV]
  | case4 a b =>
    intro heq
    injection heq with h1
    subst h1
    simp [beqV]
  | case5 a b =>
    intro heq
    injection heq with h1
    subst h1
    simp [beqV]
  | case6 => simp [beqV]
  | case7 x xs y ys ih1 ih2 =>
    intro heq
    have h12 : x = y ∧ xs = ys := by simpa using heq
    obtain ⟨h1, h2⟩ := h12
    subst h1
    subst h2
    simp only [beqV, Bool.and_eq_true]
    exact ⟨ih1 rfl, ih2 rfl⟩
  | case8 => simp [beqV]
  | case9 k v xs l w ys ih1 ih2 =>
    intro heq
    have h12 : (k = l ∧ v = w) ∧ xs = ys := by simpa using heq
    obtain ⟨⟨h1, h2⟩, h3⟩ := h12
    subst h1
    subst h2
    subst h3
    simp only [beqV, Bool.and_eq_true]
    exact ⟨⟨by simp, ih1 rfl⟩, ih2 rfl⟩
  | case10 x y hc1 hc2 hc3 hc4 hc5 hc6 hc7 hc8 hc9 =>
    intro heq
    subst heq
    exfalso
    cases x with
    | undef => exact hc1 rfl rfl
    | null => exact hc2 rfl rfl
    | bool b => exact hc3 b b rfl rfl
    | num n => exact hc4 n n rfl rfl
    | str a => exact hc5 a a rfl rfl
    | arr l =>
      cases l with
      | nil => exact hc6 rfl rfl
      | cons a l2 => exact hc7 a l2 a l2 rfl rfl
    | obj l =>
      cases l with
      | nil => exact hc8 rfl rfl
      | cons p l2 =>
        obtain ⟨k, v⟩ := p
        exact hc9 k v l2 k v l2 rfl rfl

theorem beqV_refl (v : Value) : beqV v v = true :=
  beqV_refl_aux v v rfl

theorem beqModel_refl (m : Model) : beqModel m m = true := by
  simp only [beqModel, Bool.and_eq_true]
  exact ⟨⟨beqV_refl _, beqV_refl _⟩, by simp⟩

theorem removeModel_append_of_not_mem {pre : List Model} {m : Model}
    (h : ∀ x ∈ pre, beqModel x m = false) (post : List Model) :
    Collection.removeModel (pre ++ m :: post) m = pre ++ post := by
  induction pre with
  | nil => simp [Collection.removeModel, beqModel_refl]
  | cons x pre ih =>
    have hx := h x (List.mem_cons_self _ _)
    simp only [List.cons_append, Collection.removeModel, hx, Bool.false_eq_true, if_false,
      List.cons.injEq, true_and]
    exact ih fun y hy => h y (List.mem_cons_of_mem _ hy)

/-! ## Scalar id lemmas

`Collection#set` compares ids with JS `===`; all reconciliation claims
constrain ids to numbers or strings, where `beqV` is propositional
equality. -/

/-- A usable primary-key value: a number or string (so `===` is value
equality and `Collection#remove` accepts it) that is truthy (so `_ids`
keeps it). -/
def idOk (v : Value) : Bool :=
  isNumOrStr v && truthy v

theorem beqV_iff_eq_left {a b : Value} (h : isNumOrStr a = true) :
    beqV a b = true ↔ a = b := by
  cases a <;> simp [isNumOrStr] at h <;> cases b <;> simp [beqV.eq_def]

theorem beqV_iff_eq_right {a b : Value} (h : isNumOrStr b = true) :
    beqV a b = true ↔ a = b := by
  cases b <;> simp [isNumOrStr] at h <;> cases a <;> simp [beqV.eq_def]

theorem beqV_symm_scalar {a : Value} (h : isNumOrStr a = true) (b : Value) :
    beqV a b = beqV b a := by
  rw [Bool.eq_iff_iff, beqV_iff_eq_left h, beqV_iff_eq_right h]
  exact comm

theorem beqV_eq_false_left {a b : Value} (h : isNumOrStr a = true) :
    beqV a b = false ↔ a ≠ b := by
  rw [Bool.eq_false_iff]
  exact not_congr (beqV_iff_eq_left h)

theorem idOk_isNumOrStr {v : Value} (h : idOk v = true) : isNumOrStr v = true :=
  (Bool.and_eq_true .. ▸ h).1

theorem idOk_truthy {v : Value} (h : idOk v = true) : truthy v = true :=
  (Bool.and_eq_true .. ▸ h).2

theorem idOk_ne_undef {v : Value} (h : idOk v = true) : v ≠ .undef := by
  intro hc
  subst hc
  simp [idOk, isNumOrStr] at h

theorem hasKeyV_of_idOk_lookup {r : Fields} (h : idOk (lookupV r "id") = true) :
    hasKeyV r "id" = true :=
  hasKeyV_of_lookupV_ne_undef (idOk_ne_undef h)

/-! ## Collection reconciliation lemmas -/

/-- The id of a member after `model.set(resource)` when the resource's
`id` value matched: unchanged. -/
theorem id_set_of_hasKey {m : Model} {r : Fields} (hk : hasKeyV r "id" = true)
    (hnd : nodupKeys r = true) : Model.id "id" (m.set r) = lookupV r "id" := by
  have hh : Model.has (m.set r) "id" = true := by
    show hasKeyV (mergeMap m.attributes r) "id" = true
    rw [hasKeyV_mergeMap, hk, Bool.or_true]
  simp only [Model.id, hh, if_true]
  show lookupV (mergeMap m.attributes r) "id" = lookupV r "id"
  exact lookupV_mergeMap_of_hasKey hnd _ hk

theorem getById_isSome (pk : String) (l : List Model) (idv : Value) :
    (Collection.getById pk l idv).isSome = l.any fun m => beqV (Model.id pk m) idv := by
  induction l with
  | nil => simp [Collection.getById]
  | cons m ms ih =>
    show ((m :: ms).find? _).isSome = _
    cases hb : beqV (Model.id pk m) idv with
    | true =>
      rw [show List.find? (fun item => beqV (Model.id pk item) idv) (m :: ms) = some m from
        List.find?_cons_of_pos ms hb]
      simp [hb]
    | false =>
      rw [show List.find? (fun item => beqV (Model.id pk item) idv) (m :: ms) =
          List.find? (fun item => beqV (Model.id pk item) idv) ms from
        List.find?_cons_of_neg ms (by simp [hb])]
      simp only [List.any_cons, hb, Bool.false_or]
      exact ih

theorem removeById_eq_filter {pk : String} {l : List Model} {idv : Value}
    (hm : ∀ m ∈ l, isNumOrStr (Model.id pk m) = true)
    (hd : List.Pairwise (fun a b => Model.id pk a ≠ Model.id pk b) l) :
    Collection.removeById pk l idv = l.filter fun m => !beqV (Model.id pk m) idv := by
  induction l with
  | nil => rfl
  | cons m ms ih =>
    rw [List.pairwise_cons] at hd
    cases hb : beqV (Model.id pk m) idv with
    | true =>
      have heq : Model.id pk m = idv :=
        (beqV_iff_eq_left (hm m (List.mem_cons_self _ _))).mp hb
      simp only [Collection.removeById, hb, if_true, List.filter_cons, Bool.not_true,
        Bool.false_eq_true, if_false]
      rw [List.filter_eq_self.mpr]
      intro x hx
      rw [Bool.not_eq_true', beqV_eq_false_left (hm x (List.mem_cons_of_mem _ hx)), ← heq]
      exact (hd.1 x hx).symm
    | false =>
      simp only [Collection.removeById, hb, Bool.false_eq_true, if_false, List.filter_cons,
        Bool.not_false, if_true]
      rw [ih (fun x hx => hm x (List.mem_cons_of_mem _ hx)) hd.2]

theorem removeIds_eq_filter {pk : String} {l : List Model} {ids : List Value}
    (hm : ∀ m ∈ l, isNumOrStr (Model.id pk m) = true)
    (hd : List.Pairwise (fun a b => Model.id pk a ≠ Model.id pk b) l)
    (hids : ∀ v ∈ ids, isNumOrStr v = true) :
    Collection.removeIds pk l ids = l.filter fun m => !ids.any (beqV (Model.id pk m)) := by
  induction ids generalizing l with
  | nil => simp [Collection.removeIds]
  | cons v vs ih =>
    show Collection.removeIds pk
        (if isNumOrStr v = true then Collection.removeById pk l v else l) vs = _
    rw [if_pos (hids v (List.mem_cons_self _ _)), removeById_eq_filter hm hd]
    rw [ih (fun x hx => hm x (List.mem_of_mem_filter hx))
      (hd.sublist (List.filter_sublist _)) (fun x hx => hids x (List.mem_cons_of_mem _ hx))]
    rw [List.filter_filter]
    apply List.filter_congr
    intro m _
    simp only [List.any_cons, Bool.not_or]
    rw [Bool.and_comm]

/-- The result of the change-phase of `Collection#set` on the surviving
members: each member is merged in place (`model.set(resource)`) with the
resource whose literal `id` field equals the member's id, and left alone
when no resource matches.  Member order is untouched. -/
def mergeMatched (resources : List Fields) (l : List Model) : List Model :=
  l.map fun m =>
    match resources.find? (fun r => beqV (lookupV r "id") (Model.id "id" m)) with
    | some r => m.set r
    | none => m

/-- The members freshly built by `Collection#set` for resources with no
matching member: appended in incoming order with consecutive `uniqueId`
counters. -/
def buildNews (uid : Nat) : List Fields → List Model
  | [] => []
  | r :: rs => Collection.build r uid :: buildNews (uid + 1) rs

theorem beqV_eq_false_right {a b : Value} (h : isNumOrStr b = true) :
    beqV a b = false ↔ a ≠ b := by
  rw [Bool.eq_false_iff]
  exact not_congr (beqV_iff_eq_right h)

theorem mergeMatched_nil (l : List Model) : mergeMatched [] l = l := by
  unfold mergeMatched
  simp [List.find?]

theorem mergeMatched_cons_skip {r : Fields} {rest : List Fields} {l : List Model}
    (h : ∀ m ∈ l, beqV (lookupV r "id") (Model.id "id" m) = false) :
    mergeMatched (r :: rest) l = mergeMatched rest l := by
  unfold mergeMatched
  apply List.map_congr_left
  intro m hm
  rw [show List.find? (fun r2 => beqV (lookupV r2 "id") (Model.id "id" m)) (r :: rest) =
      List.find? (fun r2 => beqV (lookupV r2 "id") (Model.id "id" m)) rest from
    List.find?_cons_of_neg rest (by simp [h m hm])]

theorem updateFirst_map {g : Model → Value} {p : Model → Bool} {f : Model → Model}
    {l : List Model} (h : ∀ x ∈ l, p x = true → g (f x) = g x) :
    (Collection.updateFirst p f l).map g = l.map g := by
  induction l with
  | nil => rfl
  | cons m ms ih =>
    cases hp : p m with
    | true =>
      simp only [Collection.updateFirst, hp, if_true, List.map_cons,
        h m (List.mem_cons_self _ _) hp]
    | false =>
      simp only [Collection.updateFirst, hp, Bool.false_eq_true, if_false, List.map_cons]
      rw [ih fun x hx => h x (List.mem_cons_of_mem _ hx)]

theorem mergeMatched_update {r : Fields} {rest : List Fields} {l : List Model}
    (hl : ∀ m ∈ l, isNumOrStr (Model.id "id" m) = true)
    (hld : List.Pairwise (fun a b => Model.id "id" a ≠ Model.id "id" b) l)
    (hrid : isNumOrStr (lookupV r "id") = true)
    (hk : hasKeyV r "id" = true) (hnd : nodupKeys r = true)
    (hrestne : ∀ r2 ∈ rest, lookupV r2 "id" ≠ lookupV r "id") :
    mergeMatched rest
        (Collection.updateFirst (fun item => beqV (Model.id "id" item) (lookupV r "id"))
          (fun m => m.set r) l) =
      mergeMatched (r :: rest) l := by
  induction l with
  | nil => simp [Collection.updateFirst, mergeMatched]
  | cons m ms ih =>
    rw [List.pairwise_cons] at hld
    cases hb : beqV (Model.id "id" m) (lookupV r "id") with
    | true =>
      have hmid : Model.id "id" m = lookupV r "id" :=
        (beqV_iff_eq_left (hl m (List.mem_cons_self _ _))).mp hb
      simp only [Collection.updateFirst, hb, if_true]
      unfold mergeMatched
      simp only [List.map_cons]
      have hsetid : Model.id "id" (m.set r) = lookupV r "id" := id_set_of_hasKey hk hnd
      have hfind1 : List.find? (fun r2 => beqV (lookupV r2 "id") (Model.id "id" (m.set r)))
          rest = none := by
        rw [List.find?_eq_none]
        intro r2 hr2
        rw [hsetid]
        simp [(beqV_eq_false_right hrid).mpr (hrestne r2 hr2)]
      have hfind2 : List.find? (fun r2 => beqV (lookupV r2 "id") (Model.id "id" m))
          (r :: rest) = some r := by
        apply List.find?_cons_of_pos
        rw [hmid]
        exact beqV_refl _
      rw [hfind1, hfind2]
      show (m.set r) :: (mergeMatched rest ms) = (m.set r) :: (mergeMatched (r :: rest) ms)
      have hskip : mergeMatched (r :: rest) ms = mergeMatched rest ms := by
        apply mergeMatched_cons_skip
        intro x hx
        rw [beqV_eq_false_right (hl x (List.mem_cons_of_mem _ hx))]
        rw [← hmid]
        exact hld.1 x hx
      rw [hskip]
    | false =>
      simp only [Collection.updateFirst, hb, Bool.false_eq_true, if_false]
      unfold mergeMatched
      simp only [List.map_cons]
      have hne : Model.id "id" m ≠ lookupV r "id" :=
        (beqV_eq_false_left (hl m (List.mem_cons_self _ _))).mp hb
      have hfind : List.find? (fun r2 => beqV (lookupV r2 "id") (Model.id "id" m))
          (r :: rest) = List.find? (fun r2 => beqV (lookupV r2 "id") (Model.id "id" m))
            rest := by
        apply List.find?_cons_of_neg
        simp [(beqV_eq_false_right (hl m (List.mem_cons_self _ _))).mpr
          fun hc => hne hc.symm]
      rw [hfind]
      show _ :: (mergeMatched rest (Collection.updateFirst _ _ ms)) =
        _ :: (mergeMatched (r :: rest) ms)
      rw [ih (fun x hx => hl x (List.mem_cons_of_mem _ hx)) hld.2]

end MobxRest

namespace MobxRest

end MobxRest

namespace MobxRest

/-- The change/add phase of `Collection#set` (the fold of `setStep` over
the incoming resources), characterized: surviving members are merged in
place with their matching resource, and a fresh member is appended, in
incoming order, for every resource matching no member. -/
theorem foldl_setStep_eq (resources : List Fields) (l : List Model) (uid : Nat)
    (hl : ∀ m ∈ l, idOk (Model.id "id" m) = true)
    (hld : List.Pairwise (fun a b => Model.id "id" a ≠ Model.id "id" b) l)
    (hr : ∀ r ∈ resources, idOk (lookupV r "id") = true)
    (hrk : ∀ r ∈ resources, nodupKeys r = true)
    (hrd : List.Pairwise (fun a b => lookupV a "id" ≠ lookupV b "id") resources) :
    resources.foldl (Collection.setStep "id" true true) ⟨l, uid⟩ =
      ⟨mergeMatched resources l ++
          buildNews uid (resources.filter fun r =>
            !(l.any fun m => beqV (Model.id "id" m) (lookupV r "id"))),
        uid + (resources.filter fun r =>
            !(l.any fun m => beqV (Model.id "id" m) (lookupV r "id"))).length⟩ := by
  induction resources generalizing l uid with
  | nil => simp [mergeMatched_nil, buildNews]
  | cons r rest ih =>
    rw [List.pairwise_cons] at hrd
    have hrid := hr r (List.mem_cons_self _ _)
    have hridS := idOk_isNumOrStr hrid
    have hkr : hasKeyV r "id" = true := hasKeyV_of_idOk_lookup hrid
    have hndr := hrk r (List.mem_cons_self _ _)
    have hrtl : ∀ r2 ∈ rest, idOk (lookupV r2 "id") = true := fun r2 h2 =>
      hr r2 (List.mem_cons_of_mem _ h2)
    have hrktl : ∀ r2 ∈ rest, nodupKeys r2 = true := fun r2 h2 =>
      hrk r2 (List.mem_cons_of_mem _ h2)
    simp only [List.foldl_cons]
    cases hA : l.any (fun m => beqV (Model.id "id" m) (lookupV r "id")) with
    | true =>
      have hcond : (Collection.getById "id" l (lookupV r "id")).isSome = true := by
        rw [getById_isSome]
        exact hA
      have hstep : Collection.setStep "id" true true ⟨l, uid⟩ r =
          ⟨Collection.updateFirst
            (fun item => beqV (Model.id "id" item) (lookupV r "id"))
            (fun m => m.set r) l, uid⟩ := by
        simp only [Collection.setStep, hcond, if_true]
      rw [hstep]
      have hmap : (Collection.updateFirst
          (fun item => beqV (Model.id "id" item) (lookupV r "id"))
          (fun m => m.set r) l).map (Model.id "id") = l.map (Model.id "id") := by
        apply updateFirst_map
        intro x hx hpx
        have hxid : Model.id "id" x = lookupV r "id" :=
          (beqV_iff_eq_left (idOk_isNumOrStr (hl x hx))).mp hpx
        rw [id_set_of_hasKey hkr hndr, hxid]
      have hl2 : ∀ m ∈ Collection.updateFirst
          (fun item => beqV (Model.id "id" item) (lookupV r "id"))
          (fun m => m.set r) l, idOk (Model.id "id" m) = true := by
        intro m2 hm2
        have hmem : Model.id "id" m2 ∈ l.map (Model.id "id") := by
          rw [← hmap]
          exact List.mem_map_of_mem _ hm2
        obtain ⟨x, hx, hgx⟩ := List.mem_map.mp hmem
        rw [← hgx]
        exact hl x hx
      have hld2 : List.Pairwise
          (fun a b => Model.id "id" a ≠ Model.id "id" b)
          (Collection.updateFirst
            (fun item => beqV (Model.id "id" item) (lookupV r "id"))
            (fun m => m.set r) l) := by
        rw [← List.pairwise_map (f := Model.id "id") (R := Ne), hmap,
          List.pairwise_map (f := Model.id "id") (R := Ne)]
        exact hld
      rw [ih _ uid hl2 hld2 hrtl hrktl hrd.2]
      have hany : ∀ x : Value, (Collection.updateFirst
          (fun item => beqV (Model.id "id" item) (lookupV r "id"))
          (fun m => m.set r) l).any (fun m => beqV (Model.id "id" m) x) =
          l.any (fun m => beqV (Model.id "id" m) x) := by
        intro x
        have h1 : ∀ (ll : List Model), ll.any (fun m => beqV (Model.id "id" m) x) =
            (ll.map (Model.id "id")).any (fun v => beqV v x) := by
          intro ll
          induction ll with
          | nil => rfl
          | cons y ys ihy => simp [List.any_cons, ihy]
        rw [h1, h1, hmap]
      have hFF : (r :: rest).filter (fun r2 =>
          !(l.any fun m => beqV (Model.id "id" m) (lookupV r2 "id"))) =
          rest.filter (fun r2 =>
            !(l.any fun m => beqV (Model.id "id" m) (lookupV r2 "id"))) := by
        rw [List.filter_cons]
        simp [hA]
      have hF2 : rest.filter (fun r2 =>
          !((Collection.updateFirst
            (fun item => beqV (Model.id "id" item) (lookupV r "id"))
            (fun m => m.set r) l).any fun m => beqV (Model.id "id" m) (lookupV r2 "id"))) =
          rest.filter (fun r2 =>
            !(l.any fun m => beqV (Model.id "id" m) (lookupV r2 "id"))) := by
        apply List.filter_congr
        intro r2 _
        rw [hany]
      have hMM : mergeMatched rest
          (Collection.updateFirst
            (fun item => beqV (Model.id "id" item) (lookupV r "id"))
            (fun m => m.set r) l) = mergeMatched (r :: rest) l :=
        mergeMatched_update (fun m hm => idOk_isNumOrStr (hl m hm)) hld hridS hkr hndr
          (fun r2 h2 => (hrd.1 r2 h2).symm)
      rw [hF2, hMM, hFF]
    | false =>
      have hcond : (Collection.getById "id" l (lookupV r "id")).isSome = false := by
        rw [getById_isSome]
        exact hA
      have hstep : Collection.setStep "id" true true ⟨l, uid⟩ r =
          ⟨l ++ [Collection.build r uid], uid + 1⟩ := by
        simp only [Collection.setStep, hcond, Bool.false_eq_true, if_false, if_true]
      rw [hstep]
      have hidnew : Model.id "id" (Collection.build r uid) = lookupV r "id" := by
        simp [Collection.build, Model.id, Model.has, Model.get, hkr]
      have hnomatch : ∀ m ∈ l, beqV (Model.id "id" m) (lookupV r "id") = false := by
        intro m hm
        have := List.any_eq_false.mp hA m hm
        simpa using this
      have hl2 : ∀ m ∈ l ++ [Collection.build r uid], idOk (Model.id "id" m) = true := by
        intro m hm
        rcases List.mem_append.mp hm with hm | hm
        · exact hl m hm
        · rcases List.mem_singleton.mp hm with rfl
          rw [hidnew]
          exact hrid
      have hld2 : List.Pairwise (fun a b => Model.id "id" a ≠ Model.id "id" b)
          (l ++ [Collection.build r uid]) := by
        rw [List.pairwise_append]
        refine ⟨hld, List.pairwise_singleton _ _, ?_⟩
        intro a ha b hb
        rcases List.mem_singleton.mp hb with rfl
        rw [hidnew]
        exact (beqV_eq_false_left (idOk_isNumOrStr (hl a ha))).mp (hnomatch a ha)
      rw [ih _ (uid + 1) hl2 hld2 hrtl hrktl hrd.2]
      have hFhead : (r :: rest).filter (fun r2 =>
          !(l.any fun m => beqV (Model.id "id" m) (lookupV r2 "id"))) =
          r :: rest.filter (fun r2 =>
            !(l.any fun m => beqV (Model.id "id" m) (lookupV r2 "id"))) := by
        rw [List.filter_cons]
        simp [hA]
      have hF2 : rest.filter (fun r2 =>
          !((l ++ [Collection.build r uid]).any fun m =>
            beqV (Model.id "id" m) (lookupV r2 "id"))) =
          rest.filter (fun r2 =>
            !(l.any fun m => beqV (Model.id "id" m) (lookupV r2 "id"))) := by
        apply List.filter_congr
        intro r2 h2
        rw [List.any_append]
        have hnew2 : [Collection.build r uid].any
            (fun m => beqV (Model.id "id" m) (lookupV r2 "id")) = false := by
          simp only [List.any_cons, List.any_nil, Bool.or_false, hidnew]
          exact (beqV_eq_false_left hridS).mpr (hrd.1 r2 h2)
        rw [hnew2, Bool.or_false]
      have hMM1 : mergeMatched rest (l ++ [Collection.build r uid]) =
          mergeMatched rest l ++ [Collection.build r uid] := by
        unfold mergeMatched
        rw [List.map_append]
        congr 1
        have hfind : List.find? (fun r2 => beqV (lookupV r2 "id")
            (Model.id "id" (Collection.build r uid))) rest = none := by
          rw [List.find?_eq_none]
          intro r2 h2
          rw [hidnew]
          simp [(beqV_eq_false_right hridS).mpr (hrd.1 r2 h2).symm]
        simp [hfind]
      have hMM2 : mergeMatched (r :: rest) l = mergeMatched rest l := by
        apply mergeMatched_cons_skip
        intro m hm
        rw [beqV_symm_scalar hridS]
        exact hnomatch m hm
      rw [hF2, hMM1, hMM2, hFhead]
      show _ = ⟨mergeMatched rest l ++ buildNews uid (r :: _), _⟩
      rw [show ∀ (rs : List Fields), buildNews uid (r :: rs) =
        Collection.build r uid :: buildNews (uid + 1) rs from fun rs => rfl]
      simp only [Collection.SetAcc.mk.injEq]
      constructor
      · rw [List.append_assoc, List.singleton_append]
      · simp only [List.length_cons]
        omega

theorem any_map_fun {α β : Type} (l : List α) (g : α → β) (p : β → Bool) :
    (l.map g).any p = l.any fun a => p (g a) := by
  induction l with
  | nil => rfl
  | cons x xs ih => simp [List.any_cons, ih]

theorem any_filter_fun {α : Type} (l : List α) (q p : α → Bool) :
    (l.filter q).any p = l.any fun a => q a && p a := by
  induction l with
  | nil => rfl
  | cons x xs ih =>
    rw [List.filter_cons]
    cases hq : q x with
    | true => simp [List.any_cons, hq, ih]
    | false => simp [List.any_cons, hq, ih]

theorem any_congr_fun {α : Type} {l : List α} {p q : α → Bool}
    (h : ∀ x ∈ l, p x = q x) : l.any p = l.any q := by
  induction l with
  | nil => rfl
  | cons x xs ih =>
    simp only [List.any_cons, h x (List.mem_cons_self _ _),
      ih fun y hy => h y (List.mem_cons_of_mem _ hy)]

/-- The remove phase of `Collection#set` keeps exactly the members whose
id strictly equals the literal `id` field of some incoming resource, when
all member ids are truthy scalars. -/
theorem remove_phase_eq (models : List Model) (resources : List Fields)
    (hl : ∀ m ∈ models, idOk (Model.id "id" m) = true)
    (hld : List.Pairwise (fun a b => Model.id "id" a ≠ Model.id "id" b) models) :
    (if (Collection.difference (Collection.ids "id" models)
          (resources.map fun r => lookupV r "id")).length != 0 then
      Collection.removeIds "id" models
        (Collection.difference (Collection.ids "id" models)
          (resources.map fun r => lookupV r "id"))
      else models) =
      models.filter fun m =>
        resources.any fun r => beqV (lookupV r "id") (Model.id "id" m) := by
  have hids : Collection.ids "id" models = models.map (Model.id "id") := by
    unfold Collection.ids
    apply List.filter_eq_self.mpr
    intro v hv
    obtain ⟨m, hm, rfl⟩ := List.mem_map.mp hv
    exact idOk_truthy (hl m hm)
  rw [hids]
  have hIn : ∀ m ∈ models,
      ((resources.map fun r => lookupV r "id").any fun y => beqV (Model.id "id" m) y) =
        (resources.any fun r => beqV (lookupV r "id") (Model.id "id" m)) := by
    intro m hm
    rw [any_map_fun]
    exact any_congr_fun fun r _ =>
      beqV_symm_scalar (idOk_isNumOrStr (hl m hm)) (lookupV r "id")
  have hkey : ∀ m ∈ models,
      ((models.map (Model.id "id")).filter fun v =>
        !((resources.map fun r => lookupV r "id").any fun y => beqV v y)).any
          (fun y => beqV (Model.id "id" m) y) =
      !(resources.any fun r => beqV (lookupV r "id") (Model.id "id" m)) := by
    intro m hm
    have hq : ∀ m2 ∈ models, beqV (Model.id "id" m) (Model.id "id" m2) = true →
        Model.id "id" m = Model.id "id" m2 := fun m2 _ hb =>
      (beqV_iff_eq_left (idOk_isNumOrStr (hl m hm))).mp hb
    rw [any_filter_fun, any_map_fun]
    rw [Bool.eq_iff_iff, List.any_eq_true]
    constructor
    · rintro ⟨m2, hm2, hconj⟩
      rw [Bool.and_eq_true] at hconj
      rw [hq m2 hm2 hconj.2, ← hIn m2 hm2]
      exact hconj.1
    · intro hnot
      refine ⟨m, hm, ?_⟩
      rw [Bool.and_eq_true, hIn m hm]
      exact ⟨hnot, beqV_refl _⟩
  cases hTR : ((models.map (Model.id "id")).filter fun v =>
      !((resources.map fun r => lookupV r "id").any fun y => beqV v y)).length != 0 with
  | true =>
    rw [if_pos (by rw [Collection.difference, hTR])]
    rw [Collection.difference]
    rw [removeIds_eq_filter (fun m hm => idOk_isNumOrStr (hl m hm)) hld]
    · apply List.filter_congr
      intro m hm
      rw [hkey m hm, Bool.not_not]
    · intro v hv
      obtain ⟨m, hm, rfl⟩ := List.mem_map.mp (List.mem_of_mem_filter hv)
      exact idOk_isNumOrStr (hl m hm)
  | false =>
    rw [if_neg (by rw [Collection.difference, hTR]; simp)]
    have hTR2 : ((models.map (Model.id "id")).filter fun v =>
        !((resources.map fun r => lookupV r "id").any fun y => beqV v y)) = [] := by
      rcases h2 : (models.map (Model.id "id")).filter fun v =>
          !((resources.map fun r => lookupV r "id").any fun y => beqV v y) with _ | ⟨a, l2⟩
      · rfl
      · rw [h2] at hTR
        simp at hTR
    symm
    apply List.filter_eq_self.mpr
    intro m hm
    have := hkey m hm
    rw [hTR2] at this
    simp only [List.any_nil] at this
    rw [Bool.eq_iff_iff] at this
    simp only [Bool.false_eq_true, false_iff, Bool.not_eq_true'] at this
    simpa using this

/-- C3 amended: `Collection#set` with all toggles enabled, characterized
for collections and resource lists with pairwise-distinct truthy
number-or-string ids (members with falsy ids are excluded — `_ids()`
filters them, so they are never removed): stale members are removed,
surviving members keep their relative order and are merged in place with
their matching resource, and a fresh member is appended per unmatched
resource in incoming order. -/
theorem collection_set_full (models : List Model) (resources : List Fields) (uid0 : Nat)
    (hl : ∀ m ∈ models, idOk (Model.id "id" m) = true)
    (hld : List.Pairwise (fun a b => Model.id "id" a ≠ Model.id "id" b) models)
    (hr : ∀ r ∈ resources, idOk (lookupV r "id") = true)
    (hrk : ∀ r ∈ resources, nodupKeys r = true)
    (hrd : List.Pairwise (fun a b => lookupV a "id" ≠ lookupV b "id") resources) :
    (Collection.set "id" uid0 models resources true true true).models =
      mergeMatched resources (models.filter fun m =>
        resources.any fun r => beqV (lookupV r "id") (Model.id "id" m)) ++
        buildNews uid0 (resources.filter fun r =>
          !(models.any fun m => beqV (Model.id "id" m) (lookupV r "id"))) := by
  have hset : Collection.set "id" uid0 models resources true true true =
      resources.foldl (Collection.setStep "id" true true)
        ⟨(if (Collection.difference (Collection.ids "id" models)
              (resources.map fun r => lookupV r "id")).length != 0 then
            Collection.removeIds "id" models
              (Collection.difference (Collection.ids "id" models)
                (resources.map fun r => lookupV r "id"))
          else models), uid0⟩ := rfl
  rw [hset, remove_phase_eq models resources hl hld]
  have hl1 : ∀ m ∈ models.filter fun m =>
      resources.any fun r => beqV (lookupV r "id") (Model.id "id" m),
      idOk (Model.id "id" m) = true := fun m hm => hl m (List.mem_of_mem_filter hm)
  have hld1 : List.Pairwise (fun a b => Model.id "id" a ≠ Model.id "id" b)
      (models.filter fun m =>
        resources.any fun r => beqV (lookupV r "id") (Model.id "id" m)) :=
    hld.sublist (List.filter_sublist _)
  rw [foldl_setStep_eq resources _ uid0 hl1 hld1 hr hrk hrd]
  have hnews : resources.filter (fun r =>
      !((models.filter fun m =>
          resources.any fun r2 => beqV (lookupV r2 "id") (Model.id "id" m)).any
        fun m => beqV (Model.id "id" m) (lookupV r "id"))) =
      resources.filter (fun r =>
        !(models.any fun m => beqV (Model.id "id" m) (lookupV r "id"))) := by
    apply List.filter_congr
    intro r hrr
    congr 1
    rw [any_filter_fun]
    rw [Bool.eq_iff_iff, List.any_eq_true, List.any_eq_true]
    constructor
    · rintro ⟨m, hm, hconj⟩
      rw [Bool.and_eq_true] at hconj
      exact ⟨m, hm, hconj.2⟩
    · rintro ⟨m, hm, hp⟩
      refine ⟨m, hm, ?_⟩
      rw [Bool.and_eq_true]
      refine ⟨?_, hp⟩
      rw [List.any_eq_true]
      refine ⟨r, hrr, ?_⟩
      have hidm : Model.id "id" m = lookupV r "id" :=
        (beqV_iff_eq_left (idOk_isNumOrStr (hl m hm))).mp hp
      rw [hidm]
      exact beqV_refl _
  rw [hnews]

/-- C3 counterexample: a collection holding the single member `{id: 0}`
reconciled against the empty resource list.  The claim requires the member
to be removed (its id `0` is not in the empty id set); `_ids()` filters
falsy ids with `.filter(Boolean)`, so the member is never scheduled for
removal and survives. -/
theorem collection_set_keeps_falsy_id_counterexample :
    (Collection.set "id" 2
      [{ attributes := [("id", Value.num 0)], committedAttributes := [("id", Value.num 0)],
         optimisticId := "i_1" }] [] true true true).models =
      [{ attributes := [("id", Value.num 0)], committedAttributes := [("id", Value.num 0)],
         optimisticId := "i_1" }] := by
  rfl

set_option maxRecDepth 8000 in
/-- C3 amended, witness: members `{id:1}` and `{id:2,name:"a"}` reconciled
against `[{id:2,name:"b"}, {id:3}]`: member 1 is removed, member 2 is
merged in place (keeping its identity `i_2` and position), and a fresh
member `i_4` for resource id 3 is appended. -/
theorem collection_set_full_witness :
    (Collection.set "id" 4
      [{ attributes := [("id", Value.num 1)], committedAttributes := [("id", Value.num 1)],
         optimisticId := "i_1" },
       { attributes := [("id", Value.num 2), ("name", Value.str "a")],
         committedAttributes := [("id", Value.num 2), ("name", Value.str "a")],
         optimisticId := "i_2" }]
      [[("id", Value.num 2), ("name", Value.str "b")], [("id", Value.num 3)]]
      true true true).models =
      [{ attributes := [("id", Value.num 2), ("name", Value.str "b")],
         committedAttributes := [("id", Value.num 2), ("name", Value.str "a")],
         optimisticId := "i_2" },
       { attributes := [("id", Value.num 3)], committedAttributes := [("id", Value.num 3)],
         optimisticId := "i_4" }] := by
  rw [collection_set_full _ _ 4
    (by
      intro m hm
      rcases List.mem_cons.mp hm with rfl | hm
      · rfl
      · rcases List.mem_singleton.mp hm with rfl
        rfl)
    (by
      constructor
      · intro b hb
        rcases List.mem_singleton.mp hb with rfl
        simp [Model.id, Model.has, Model.get, hasKeyV, lookupV]
      · simp)
    (by
      intro r hrr
      rcases List.mem_cons.mp hrr with rfl | hrr
      · rfl
      · rcases List.mem_singleton.mp hrr with rfl
        rfl)
    (by
      intro r hrr
      rcases List.mem_cons.mp hrr with rfl | hrr
      · rfl
      · rcases List.mem_singleton.mp hrr with rfl
        rfl)
    (by
      constructor
      · intro b hb
        rcases List.mem_singleton.mp hb with rfl
        simp [lookupV]
      · simp)]
  simp [mergeMatched, buildNews, Collection.build, Model.set, Model.id, Model.has, Model.get,
    beqV, lookupV, hasKeyV, mergeMap, setKeyV, List.find?]
  rfl

/-! ## deepmerge lemmas -/

/-- The per-key value computed by deepmerge's `mergeObject` for a source
entry `(k, sv)` against target `t`. -/
def mergeChoice (t : Value) (k : String) (sv : Value) : Value :=
  if hasKeyV (valFields t) k && isMergeableObject sv then
    deepmergeV (lookupV (valFields t) k) sv
  else sv

theorem deepmergeV_arr_right (t : Value) (ys : List Value) :
    deepmergeV t (.arr ys) = .arr ys := by
  cases t <;> simp [deepmergeV.eq_def]

theorem deepmergeV_obj_obj (s d : Fields) :
    deepmergeV (.obj s) (.obj d) = .obj (mergeInto (.obj s) s d) := by
  simp [deepmergeV.eq_def, isMergeableObject, valFields]

theorem deepmergeV_arr_obj (xs : List Value) (d : Fields) :
    deepmergeV (.arr xs) (.obj d) = .obj d := by
  simp [deepmergeV.eq_def]

theorem changeValue_obj_obj (s t : Fields) :
    changeValue (.obj s) (.obj t) = .obj (getChangesBetween s t) := by
  simp [changeValue.eq_def]

theorem changeValue_target_not_obj {A B : Value} (h : ∀ t, B ≠ .obj t) :
    changeValue A B = B := by
  cases A <;> cases B <;> first
    | exact absurd rfl (h _)
    | rfl
    | simp [changeValue.eq_def]

theorem mergeInto_cons_eq (t : Value) (dest : Fields) (k1 : String) (sv : Value)
    (rest : Fields) :
    mergeInto t dest ((k1, sv) :: rest) = mergeInto t
      (if hasKeyV (valFields t) k1 && isMergeableObject sv then
        setKeyV dest k1 (deepmergeV (lookupV (valFields t) k1) sv)
      else setKeyV dest k1 sv) rest := by
  simp only [mergeInto]

theorem mergeInto_nil_eq (t : Value) (dest : Fields) : mergeInto t dest [] = dest := by
  simp only [mergeInto]

theorem hasKeyV_mergeInto (t : Value) (dest src : Fields) (k : String) :
    hasKeyV (mergeInto t dest src) k = (hasKeyV dest k || hasKeyV src k) := by
  induction src generalizing dest with
  | nil => simp [mergeInto_nil_eq]
  | cons p rest ih =>
    obtain ⟨k1, sv⟩ := p
    rw [mergeInto_cons_eq, ih]
    have hset : ∀ (v : Value), hasKeyV (setKeyV dest k1 v) k = (k1 == k || hasKeyV dest k) :=
      fun v => hasKeyV_setKeyV dest k1 v k
    split
    · rw [hset]
      simp only [hasKeyV_cons]
      by_cases h1 : k1 == k <;> simp [h1, Bool.or_assoc, Bool.or_comm]
    · rw [hset]
      simp only [hasKeyV_cons]
      by_cases h1 : k1 == k <;> simp [h1, Bool.or_assoc, Bool.or_comm]

theorem lookupV_mergeInto (t : Value) (dest : Fields) {src : Fields}
    (hnd : nodupKeys src = true) (k : String) :
    lookupV (mergeInto t dest src) k =
      if hasKeyV src k then mergeChoice t k (lookupV src k) else lookupV dest k := by
  induction src generalizing dest with
  | nil => simp [mergeInto_nil_eq]
  | cons p rest ih =>
    obtain ⟨k1, sv⟩ := p
    simp only [nodupKeys, Bool.and_eq_true, Bool.not_eq_true'] at hnd
    rw [mergeInto_cons_eq, ih _ hnd.2]
    by_cases hk : (k1 == k) = true
    · have hk1 : k1 = k := by simpa using hk
      subst hk1
      rw [if_neg (show ¬hasKeyV rest k1 = true by simp [hnd.1])]
      rw [if_pos (show hasKeyV ((k1, sv) :: rest) k1 = true by simp)]
      have hlook : lookupV ((k1, sv) :: rest) k1 = sv := by simp [lookupV]
      rw [hlook]
      unfold mergeChoice
      by_cases hc : (hasKeyV (valFields t) k1 && isMergeableObject sv) = true
      · rw [if_pos hc, if_pos hc, lookupV_setKeyV_self]
      · rw [if_neg hc, if_neg hc, lookupV_setKeyV_self]
    · have hk' : (k1 == k) = false := by simpa using hk
      have hk2 : hasKeyV ((k1, sv) :: rest) k = hasKeyV rest k := by simp [hk']
      rw [hk2]
      have hlook2 : lookupV ((k1, sv) :: rest) k = lookupV rest k := by simp [lookupV, hk']
      rw [hlook2]
      by_cases hr : hasKeyV rest k = true
      · rw [if_pos hr, if_pos hr]
      · rw [if_neg hr, if_neg hr]
        by_cases hc : (hasKeyV (valFields t) k1 && isMergeableObject sv) = true
        · rw [if_pos hc, lookupV_setKeyV_ne _ _ hk']
        · rw [if_neg hc, lookupV_setKeyV_ne _ _ hk']

theorem nodupKeys_setKeyV {xs : Fields} (h : nodupKeys xs = true) (k : String) (v : Value) :
    nodupKeys (setKeyV xs k v) = true := by
  induction xs with
  | nil => simp [setKeyV, nodupKeys]
  | cons p rest ih =>
    obtain ⟨k1, v1⟩ := p
    simp only [nodupKeys, Bool.and_eq_true, Bool.not_eq_true'] at h
    by_cases hk : k1 == k
    · have hk1 : k1 = k := by simpa using hk
      subst hk1
      simp only [setKeyV, hk, if_true, nodupKeys, Bool.and_eq_true, Bool.not_eq_true']
      exact ⟨h.1, h.2⟩
    · simp only [setKeyV, hk, Bool.false_eq_true, if_false, nodupKeys, Bool.and_eq_true,
        Bool.not_eq_true']
      refine ⟨?_, ih h.2⟩
      rw [hasKeyV_setKeyV]
      have : (k == k1) = false := by
        rw [Bool.eq_false_iff]
        intro hc
        have : k = k1 := by simpa using hc
        subst this
        simp at hk
      simp [this, h.1]

theorem nodupKeys_mergeInto (t : Value) {dest : Fields} (h : nodupKeys dest = true)
    (src : Fields) : nodupKeys (mergeInto t dest src) = true := by
  induction src generalizing dest with
  | nil => simpa [mergeInto_nil_eq] using h
  | cons p rest ih =>
    obtain ⟨k1, sv⟩ := p
    rw [mergeInto_cons_eq]
    split <;> exact ih (nodupKeys_setKeyV h _ _)

theorem setKeyV_append_of_not_has {xs : Fields} {k : String} (h : hasKeyV xs k = false)
    (v : Value) : setKeyV xs k v = xs ++ [(k, v)] := by
  induction xs with
  | nil => rfl
  | cons p rest ih =>
    obtain ⟨k1, v1⟩ := p
    simp only [hasKeyV_cons, Bool.or_eq_false_iff] at h
    simp [setKeyV, h.1, ih h.2]

theorem mergeMap_append_of_disjoint (acc : Fields) {src : Fields}
    (hdis : ∀ p ∈ src, hasKeyV acc p.1 = false) (hnd : nodupKeys src = true) :
    mergeMap acc src = acc ++ src := by
  induction src generalizing acc with
  | nil => simp [mergeMap]
  | cons p rest ih =>
    obtain ⟨k1, v1⟩ := p
    simp only [nodupKeys, Bool.and_eq_true, Bool.not_eq_true'] at hnd
    show mergeMap (setKeyV acc k1 v1) rest = _
    rw [setKeyV_append_of_not_has (hdis (k1, v1) (List.mem_cons_self _ _)) v1]
    have hdis2 : ∀ q ∈ rest, hasKeyV (acc ++ [(k1, v1)]) q.1 = false := by
      intro q hq
      obtain ⟨qk, qv⟩ := q
      rw [hasKeyV_append]
      have h1 : hasKeyV acc qk = false := hdis (qk, qv) (List.mem_cons_of_mem _ hq)
      have h2 : hasKeyV [(k1, v1)] qk = false := by
        simp only [hasKeyV_cons, hasKeyV_nil, Bool.or_false]
        rw [Bool.eq_false_iff]
        intro hc
        have hkk : k1 = qk := by simpa using hc
        subst hkk
        rw [hasKeyV_of_mem hq] at hnd
        simp at hnd
      simp [h1, h2]
    rw [ih _ hdis2 hnd.2, List.append_assoc]
    rfl

theorem mergeMap_nil_of_nodup {src : Fields} (hnd : nodupKeys src = true) :
    mergeMap [] src = src := by
  rw [mergeMap_append_of_disjoint [] (fun p _ => rfl) hnd]
  rfl

theorem mergeInto_no_target {t0 : Value} (hvt : valFields t0 = []) (dest src : Fields) :
    mergeInto t0 dest src = mergeMap dest src := by
  induction src generalizing dest with
  | nil => simp [mergeInto_nil_eq, mergeMap]
  | cons p rest ih =>
    obtain ⟨k1, sv⟩ := p
    rw [mergeInto_cons_eq, hvt]
    simp only [hasKeyV_nil, Bool.false_and, Bool.false_eq_true, if_false]
    exact ih _

theorem noUndefV_obj {xs : Fields} : noUndefV (.obj xs) = noUndefFields xs := by
  simp [noUndefV]

theorem noDelValue_obj (s t : Fields) : noDelValue (.obj s) (.obj t) = noDelFields s t := by
  simp [noDelValue.eq_def]

theorem noDelFields_elim {a b : Fields} (h : noDelFields a b = true) :
    ∀ p ∈ a, hasKeyV b p.1 = true ∧ noDelValue p.2 (lookupV b p.1) = true := by
  induction a with
  | nil => simp
  | cons p rest ih =>
    obtain ⟨k, v⟩ := p
    simp only [noDelFields, Bool.and_eq_true] at h
    intro q hq
    rcases List.mem_cons.mp hq with hq | hq
    · subst hq
      exact ⟨h.1.1, h.1.2⟩
    · exact ih h.2 q hq

theorem noDelFields_hasKey {a b : Fields} (h : noDelFields a b = true) {k : String}
    (hk : hasKeyV a k = true) : hasKeyV b k = true := by
  obtain ⟨v, hm⟩ : ∃ v, (k, v) ∈ a := by
    induction a with
    | nil => simp at hk
    | cons p rest ih =>
      obtain ⟨k1, v1⟩ := p
      by_cases h1 : k1 == k
      · have : k1 = k := by simpa using h1
        subst this
        exact ⟨v1, List.mem_cons_self _ _⟩
      · simp only [hasKeyV_cons, h1, Bool.false_or] at hk
        obtain ⟨v, hv⟩ := ih (by
          simp only [noDelFields, Bool.and_eq_true] at h
          exact h.2) hk
        exact ⟨v, List.mem_cons_of_mem _ hv⟩
  exact (noDelFields_elim h (k, v) hm).1

theorem noDelFields_lookup {a b : Fields} (h : noDelFields a b = true)
    (hnd : nodupKeys a = true) {k : String} (hk : hasKeyV a k = true) :
    noDelValue (lookupV a k) (lookupV b k) = true := by
  obtain ⟨v, hm⟩ : ∃ v, (k, v) ∈ a := by
    induction a with
    | nil => simp at hk
    | cons p rest ih =>
      obtain ⟨k1, v1⟩ := p
      by_cases h1 : k1 == k
      · have : k1 = k := by simpa using h1
        subst this
        exact ⟨v1, List.mem_cons_self _ _⟩
      · simp only [hasKeyV_cons, h1, Bool.false_or] at hk
        obtain ⟨v, hv⟩ := ih (by
          simp only [noDelFields, Bool.and_eq_true] at h
          exact h.2) (by
          simp only [nodupKeys, Bool.and_eq_true] at hnd
          exact hnd.2) hk
        exact ⟨v, List.mem_cons_of_mem _ hv⟩
  rw [lookupV_of_mem_nodup hnd hm]
  exact (noDelFields_elim h (k, v) hm).2

theorem isEqual_obj_of_pointwise {xs ys : Fields} (hnd : nodupKeys xs = true)
    (hk : ∀ k, hasKeyV xs k = hasKeyV ys k)
    (hv : ∀ k, hasKeyV xs k = true → isEqual (lookupV xs k) (lookupV ys k) = true) :
    isEqual (.obj xs) (.obj ys) = true := by
  simp only [isEqual, Bool.and_eq_true]
  constructor
  · apply objSubset_intro
    intro p hp
    obtain ⟨k, v⟩ := p
    have hhk := hasKeyV_of_mem hp
    refine ⟨by rw [← hk]; exact hhk, ?_⟩
    rw [← lookupV_of_mem_nodup hnd hp]
    exact hv k hhk
  · rw [List.all_eq_true]
    intro p hp
    rw [hk]
    exact hasKeyV_of_mem hp

theorem changeValue_source_not_obj {A B : Value} (h : ∀ s, A ≠ .obj s) :
    changeValue A B = B := by
  cases A <;> cases B <;> first
    | exact absurd rfl (h _)
    | rfl
    | simp [changeValue.eq_def]

theorem deepmergeV_nonmergeable_obj {A : Value} (h : isMergeableObject A = false)
    (d : Fields) : deepmergeV A (.obj d) = .obj (mergeInto A [] d) := by
  cases A with
  | arr xs => exact absurd h (by simp [isMergeableObject])
  | obj o => exact absurd h (by simp [isMergeableObject])
  | undef => simp [deepmergeV.eq_def, isMergeableObject, valFields]
  | null => simp [deepmergeV.eq_def, isMergeableObject, valFields]
  | bool bv => simp [deepmergeV.eq_def, isMergeableObject, valFields]
  | num nv => simp [deepmergeV.eq_def, isMergeableObject, valFields]
  | str sv => simp [deepmergeV.eq_def, isMergeableObject, valFields]

/-- The heart of the diff/apply round trip: under no-deletion and
well-formedness side conditions, applying the computed diff back onto the
source reconstructs the target up to lodash `isEqual`. -/
theorem diff_roundtrip_aux :
    ∀ (n : Nat) (a b : Fields), sizeOf a < n →
      wellKeyedFields a = true → noUndefFields a = true →
      wellKeyedFields b = true → noUndefFields b = true →
      noDelFields a b = true →
      isEqual (.obj (applyPatchChanges a (getChangesBetween a b))) (.obj b) = true := by
  intro n
  induction n with
  | zero =>
    intro a b hlt
    omega
  | succ n ih =>
    intro a b hlt ha hna hb hnb hdel
    have hnda : nodupKeys a = true := wellKeyedFields_nodupKeys ha
    have hDnd : nodupKeys (getChangesBetween a b) = true := nodupKeys_getChangesBetween a b
    have happ : applyPatchChanges a (getChangesBetween a b) =
        mergeInto (.obj a) a (getChangesBetween a b) := rfl
    have hDmem : ∀ k, hasKeyV (getChangesBetween a b) k = true ↔
        k ∈ getChangedAttributesBetween a b := by
      intro k
      rw [hasKeyV_getChangesBetween]
      exact decide_eq_true_iff
    have hDb : ∀ k, hasKeyV (getChangesBetween a b) k = true → hasKeyV b k = true := by
      intro k hk
      have hmem := (hDmem k).mp hk
      rw [mem_getChangedAttributesBetween] at hmem
      rcases hmem.1 with hak | hbk
      · exact noDelFields_hasKey hdel hak
      · exact hbk
    have hkeys : ∀ k, hasKeyV (applyPatchChanges a (getChangesBetween a b)) k =
        hasKeyV b k := by
      intro k
      rw [happ, hasKeyV_mergeInto]
      rw [Bool.eq_iff_iff, Bool.or_eq_true]
      constructor
      · rintro (hak | hDk)
        · exact noDelFields_hasKey hdel hak
        · exact hDb k hDk
      · intro hbk
        cases hak : hasKeyV a k with
        | true => exact Or.inl rfl
        | false =>
          refine Or.inr ?_
          rw [hDmem, mem_getChangedAttributesBetween]
          refine ⟨Or.inr hbk, ?_⟩
          rw [lookupV_eq_undef_of_not_hasKeyV hak]
          rw [Bool.eq_false_iff]
          intro hc
          exact lookupV_ne_undef_of_noUndef hnb hbk (isEqual_undef_left.mp hc)
    have hvals : ∀ k, hasKeyV (applyPatchChanges a (getChangesBetween a b)) k = true →
        isEqual (lookupV (applyPatchChanges a (getChangesBetween a b)) k)
          (lookupV b k) = true := by
      intro k hXk
      have hXlook : lookupV (applyPatchChanges a (getChangesBetween a b)) k =
          if hasKeyV (getChangesBetween a b) k then
            mergeChoice (.obj a) k (lookupV (getChangesBetween a b) k)
          else lookupV a k := by
        rw [happ]
        exact lookupV_mergeInto (.obj a) a hDnd k
      cases hDk : hasKeyV (getChangesBetween a b) k with
      | false =>
        rw [hXlook, hDk, if_neg (by simp)]
        have hak : hasKeyV a k = true := by
          rw [happ, hasKeyV_mergeInto, hDk, Bool.or_false] at hXk
          exact hXk
        have hnotmem : ¬k ∈ getChangedAttributesBetween a b := by
          rw [← hDmem, hDk]
          simp
        rw [mem_getChangedAttributesBetween] at hnotmem
        cases heq : isEqual (lookupV a k) (lookupV b k) with
        | true => rfl
        | false => exact absurd ⟨Or.inl hak, heq⟩ hnotmem
      | true =>
        have hmem := (hDmem k).mp hDk
        have hchg : isEqual (lookupV a k) (lookupV b k) = false :=
          (mem_getChangedAttributesBetween.mp hmem).2
        have hDval : lookupV (getChangesBetween a b) k =
            changeValue (lookupV a k) (lookupV b k) := by
          rw [lookupV_getChangesBetween, if_pos hmem]
        have hBkey : hasKeyV b k = true := hDb k hDk
        have hBwk : wellKeyedV (lookupV b k) = true := wellKeyedV_lookupV hb k
        have hBrefl : isEqual (lookupV b k) (lookupV b k) = true := isEqual_refl hBwk
        have hchoice : mergeChoice (.obj a) k (lookupV (getChangesBetween a b) k) =
            if hasKeyV a k && isMergeableObject (lookupV (getChangesBetween a b) k) then
              deepmergeV (lookupV a k) (lookupV (getChangesBetween a b) k)
            else lookupV (getChangesBetween a b) k := rfl
        rw [hXlook, hDk, if_pos rfl, hchoice]
        cases hB : lookupV b k with
        | undef => exact absurd hB (lookupV_ne_undef_of_noUndef hnb hBkey)
        | arr ys =>
          have hD2 : lookupV (getChangesBetween a b) k = .arr ys := by
            rw [hDval, hB]
            exact changeValue_target_not_obj fun t => by simp
          rw [hD2]
          cases hak : hasKeyV a k with
          | true =>
            rw [show (true && isMergeableObject (Value.arr ys)) = true from rfl, if_pos rfl]
            rw [deepmergeV_arr_right]
            rw [hB] at hBrefl
            exact hBrefl
          | false =>
            rw [show (false && isMergeableObject (Value.arr ys)) = false from rfl]
            rw [if_neg (by simp)]
            rw [hB] at hBrefl
            exact hBrefl
        | null =>
          have hD2 : lookupV (getChangesBetween a b) k = .null := by
            rw [hDval, hB]
            exact changeValue_target_not_obj fun t => by simp
          rw [hD2]
          rw [show isMergeableObject Value.null = false from rfl, Bool.and_false]
          rw [if_neg (by simp)]
          rw [hB] at hBrefl
          exact hBrefl
        | bool bv =>
          have hD2 : lookupV (getChangesBetween a b) k = .bool bv := by
            rw [hDval, hB]
            exact changeValue_target_not_obj fun t => by simp
          rw [hD2]
          rw [show isMergeableObject (Value.bool bv) = false from rfl, Bool.and_false]
          rw [if_neg (by simp)]
          rw [hB] at hBrefl
          exact hBrefl
        | num nv =>
          have hD2 : lookupV (getChangesBetween a b) k = .num nv := by
            rw [hDval, hB]
            exact changeValue_target_not_obj fun t => by simp
          rw [hD2]
          rw [show isMergeableObject (Value.num nv) = false from rfl, Bool.and_false]
          rw [if_neg (by simp)]
          rw [hB] at hBrefl
          exact hBrefl
        | str sv =>
          have hD2 : lookupV (getChangesBetween a b) k = .str sv := by
            rw [hDval, hB]
            exact changeValue_target_not_obj fun t => by simp
          rw [hD2]
          rw [show isMergeableObject (Value.str sv) = false from rfl, Bool.and_false]
          rw [if_neg (by simp)]
          rw [hB] at hBrefl
          exact hBrefl
        | obj t =>
          have hndt : nodupKeys t = true := by
            have := hBwk
            rw [hB, wellKeyedV_obj] at this
            exact wellKeyedFields_nodupKeys this
          cases hA : lookupV a k with
          | obj s =>
            have hak : hasKeyV a k = true :=
              hasKeyV_of_lookupV_ne_undef (by rw [hA]; exact fun h => Value.noConfusion h)
            have hD2 : lookupV (getChangesBetween a b) k =
                .obj (getChangesBetween s t) := by
              rw [hDval, hA, hB, changeValue_obj_obj]
            rw [hD2, hak]
            rw [show (true && isMergeableObject (Value.obj (getChangesBetween s t))) = true
              from rfl, if_pos rfl, deepmergeV_obj_obj]
            have hrec : isEqual (.obj (applyPatchChanges s (getChangesBetween s t)))
                (.obj t) = true := by
              apply ih s t
              · have h1 := sizeOf_lookupV a k
                rw [hA] at h1
                simp only [Value.obj.sizeOf_spec] at h1
                omega
              · have h1 := wellKeyedV_lookupV ha k
                rw [hA, wellKeyedV_obj] at h1
                exact h1
              · have h1 := noUndefV_lookupV hna hak
                rw [hA, noUndefV_obj] at h1
                exact h1
              · have h1 := hBwk
                rw [hB, wellKeyedV_obj] at h1
                exact h1
              · have h1 := noUndefV_lookupV hnb hBkey
                rw [hB, noUndefV_obj] at h1
                exact h1
              · have h1 := noDelFields_lookup hdel hnda hak
                rw [hA, hB, noDelValue_obj] at h1
                exact h1
            exact hrec
          | undef =>
            cases hak : hasKeyV a k with
            | true => exact absurd hA (lookupV_ne_undef_of_noUndef hna hak)
            | false =>
              have hD2 : lookupV (getChangesBetween a b) k = .obj t := by
                rw [hDval, hA, hB]
                exact changeValue_source_not_obj fun s => by simp
              rw [hD2]
              rw [show (false && isMergeableObject (Value.obj t)) = false from rfl]
              rw [if_neg (by simp)]
              rw [hB] at hBrefl
              exact hBrefl
          | arr xs =>
            have hD2 : lookupV (getChangesBetween a b) k = .obj t := by
              rw [hDval, hA, hB]
              exact changeValue_source_not_obj fun s => by simp
            rw [hD2]
            cases hak : hasKeyV a k with
            | true =>
              rw [show (true && isMergeableObject (Value.obj t)) = true from rfl,
                if_pos rfl, deepmergeV_arr_obj]
              rw [hB] at hBrefl
              exact hBrefl
            | false =>
              rw [show (false && isMergeableObject (Value.obj t)) = false from rfl]
              rw [if_neg (by simp)]
              rw [hB] at hBrefl
              exact hBrefl
          | null =>
            have hD2 : lookupV (getChangesBetween a b) k = .obj t := by
              rw [hDval, hA, hB]
              exact changeValue_source_not_obj fun s => by simp
            rw [hD2]
            cases hak : hasKeyV a k with
            | true =>
              rw [show (true && isMergeableObject (Value.obj t)) = true from rfl,
                if_pos rfl]
              rw [@deepmergeV_nonmergeable_obj Value.null rfl t]
              rw [@mergeInto_no_target Value.null rfl [] t, mergeMap_nil_of_nodup hndt]
              rw [hB] at hBrefl
              exact hBrefl
            | false =>
              rw [show (false && isMergeableObject (Value.obj t)) = false from rfl]
              rw [if_neg (by simp)]
              rw [hB] at hBrefl
              exact hBrefl
          | bool bv =>
            have hD2 : lookupV (getChangesBetween a b) k = .obj t := by
              rw [hDval, hA, hB]
              exact changeValue_source_not_obj fun s => by simp
            rw [hD2]
            cases hak : hasKeyV a k with
            | true =>
              rw [show (true && isMergeableObject (Value.obj t)) = true from rfl,
                if_pos rfl]
              rw [@deepmergeV_nonmergeable_obj (Value.bool bv) rfl t]
              rw [@mergeInto_no_target (Value.bool bv) rfl [] t, mergeMap_nil_of_nodup hndt]
              rw [hB] at hBrefl
              exact hBrefl
            | false =>
              rw [show (false && isMergeableObject (Value.obj t)) = false from rfl]
              rw [if_neg (by simp)]
              rw [hB] at hBrefl
              exact hBrefl
          | num nv =>
            have hD2 : lookupV (getChangesBetween a b) k = .obj t := by
              rw [hDval, hA, hB]
              exact changeValue_source_not_obj fun s => by simp
            rw [hD2]
            cases hak : hasKeyV a k with
            | true =>
              rw [show (true && isMergeableObject (Value.obj t)) = true from rfl,
                if_pos rfl]
              rw [@deepmergeV_nonmergeable_obj (Value.num nv) rfl t]
              rw [@mergeInto_no_target (Value.num nv) rfl [] t, mergeMap_nil_of_nodup hndt]
              rw [hB] at hBrefl
              exact hBrefl
            | false =>
              rw [show (false && isMergeableObject (Value.obj t)) = false from rfl]
              rw [if_neg (by simp)]
              rw [hB] at hBrefl
              exact hBrefl
          | str sv =>
            have hD2 : lookupV (getChangesBetween a b) k = .obj t := by
              rw [hDval, hA, hB]
              exact changeValue_source_not_obj fun s => by simp
            rw [hD2]
            cases hak : hasKeyV a k with
            | true =>
              rw [show (true && isMergeableObject (Value.obj t)) = true from rfl,
                if_pos rfl]
              rw [@deepmergeV_nonmergeable_obj (Value.str sv) rfl t]
              rw [@mergeInto_no_target (Value.str sv) rfl [] t, mergeMap_nil_of_nodup hndt]
              rw [hB] at hBrefl
              exact hBrefl
            | false =>
              rw [show (false && isMergeableObject (Value.obj t)) = false from rfl]
              rw [if_neg (by simp)]
              rw [hB] at hBrefl
              exact hBrefl
    have hndX : nodupKeys (applyPatchChanges a (getChangesBetween a b)) = true := by
      rw [happ]
      exact nodupKeys_mergeInto _ hnda _
    exact isEqual_obj_of_pointwise hndX hkeys hvals

/-! ## Claim theorems -/

set_option maxRecDepth 8000 in
/-- C7: for an entity whose committed state is
`{id:1, name:"a", meta:{x:1, y:2}}` and whose working state differs only in
the nested field `meta.y = 3`, `changes` is exactly `{meta:{y:3}}` — the
nested diff contains only the changed sub-key, not the whole `meta`
object. -/
theorem changes_nested_diff_is_minimal :
    Model.changes
      { attributes := [("id", .num 1), ("name", .str "a"),
          ("meta", .obj [("x", .num 1), ("y", .num 3)])],
        committedAttributes := [("id", .num 1), ("name", .str "a"),
          ("meta", .obj [("x", .num 1), ("y", .num 2)])],
        optimisticId := "i_1" } = [("meta", .obj [("y", .num 3)])] := by
  simp [Model.changes, getChangesBetween, changeValue, getChangedAttributesBetween, keyUnion,
    dedupFirst, lookupV, isEqual, objSubset, hasKeyV]

/-- C4 counterexample: a model whose primary-key attribute is present but
holds the falsy value `0`.  The claim asserts that `id` then falls back to
the construction-time `optimisticId`; the accessor actually returns the
stored `0`, because `Model#id` only tests presence (`has`), not
truthiness. -/
theorem id_accessor_falsy_counterexample :
    Model.id "id"
      { attributes := [("id", .num 0)], committedAttributes := [("id", .num 0)],
        optimisticId := "i_1" } = .num 0 ∧
      Value.num 0 ≠ .str "i_1" := by
  exact ⟨rfl, fun h => Value.noConfusion h⟩

/-- C4 amended: `id` returns the primary-key attribute whenever it is
present — truthy or falsy — and falls back to the `optimisticId` only when
the attribute is absent. -/
theorem id_accessor_presence_only (pk : String) (m : Model) :
    (m.has pk = true → Model.id pk m = m.get pk) ∧
      (m.has pk = false → Model.id pk m = .str m.optimisticId) := by
  constructor <;> intro h <;> simp [Model.id, h]

/-- C4 amended, witness: the falsy primary key `0` is returned as the id. -/
theorem id_accessor_presence_only_witness :
    Model.id "id"
      { attributes := [("id", .num 0)], committedAttributes := [("id", .num 0)],
        optimisticId := "i_7" } = .num 0 :=
  ((id_accessor_presence_only "id"
    { attributes := [("id", .num 0)], committedAttributes := [("id", .num 0)],
      optimisticId := "i_7" }).1 rfl).trans rfl

/-- C10: `isNew` is true exactly when the primary-key attribute is absent
or falsy; consequently an entity whose primary key is present but falsy
(such as 0 or "") is treated as new — `save` selects POST and `url()`
returns the bare root without the `/id` suffix. -/
theorem isNew_falsy_primary_key (pk : String) (m : Model) (root : String) (patch : Bool)
    (hroot : root ≠ "") :
    (Model.isNew pk m = true ↔ (m.has pk = false ∨ truthy (m.get pk) = false)) ∧
      (m.has pk = true → truthy (m.get pk) = false →
        Model.isNew pk m = true ∧ Model.saveMethod pk m patch = "post" ∧
          Model.url pk m (some root) none = .ok root) := by
  constructor
  · simp [Model.isNew]
  · intro h1 h2
    have hnew : Model.isNew pk m = true := by
      simp [Model.isNew, h1, h2]
    refine ⟨hnew, by simp [Model.saveMethod, hnew], ?_⟩
    have hr : Model.strTruthy (some root) = true := by
      simp [Model.strTruthy, hroot]
    simp [Model.url, hr, hnew]

/-- C10 witness: the concrete model `{id: 0}` with url root `/users`. -/
theorem isNew_falsy_primary_key_witness :
    Model.isNew "id"
        { attributes := [("id", .num 0)], committedAttributes := [("id", .num 0)],
          optimisticId := "i_1" } = true ∧
      Model.saveMethod "id"
        { attributes := [("id", .num 0)], committedAttributes := [("id", .num 0)],
          optimisticId := "i_1" } true = "post" ∧
      Model.url "id"
        { attributes := [("id", .num 0)], committedAttributes := [("id", .num 0)],
          optimisticId := "i_1" } (some "/users") none = .ok "/users" :=
  (isNew_falsy_primary_key "id" _ "/users" true (by decide)).2 rfl rfl

/-- C6: payload selection of `Model#save` — explicit attributes win under
`patch` on an existing entity, the dirty diff is used under `patch`
without explicit attributes, and otherwise (new entity or non-patch mode)
the full current attributes merged with the explicit ones are sent; the
verb is POST when new, PATCH when existing under `patch`, PUT when
existing otherwise. -/
theorem save_payload_and_verb_selection (pk : String) (m : Model) (attrs : Fields)
    (patch : Bool) :
    (patch = true → Model.isNew pk m = false →
        Model.savePayload pk m (some attrs) patch = attrs ∧
          Model.saveMethod pk m patch = "patch") ∧
      (patch = true → Model.isNew pk m = false →
        Model.savePayload pk m none patch = m.changes) ∧
      (Model.isNew pk m = true →
        Model.savePayload pk m (some attrs) patch = mergeMap m.attributes attrs ∧
          Model.savePayload pk m none patch = m.attributes ∧
            Model.saveMethod pk m patch = "post") ∧
      (patch = false →
        Model.savePayload pk m (some attrs) patch = mergeMap m.attributes attrs ∧
          Model.savePayload pk m none patch = m.attributes) ∧
      (Model.isNew pk m = false → patch = false → Model.saveMethod pk m patch = "put") := by
  refine ⟨?_, ?_, ?_, ?_, ?_⟩
  · intro hp hn
    subst hp
    exact ⟨by simp [Model.savePayload, hn], by simp [Model.saveMethod, hn]⟩
  · intro hp hn
    subst hp
    simp [Model.savePayload, hn]
  · intro hn
    refine ⟨by simp [Model.savePayload, hn], ?_, by simp [Model.saveMethod, hn]⟩
    show Model.savePayload pk m none patch = m.attributes
    simp only [Model.savePayload, hn]
    simp [mergeMap]
  · intro hp
    subst hp
    constructor
    · simp [Model.savePayload]
    · show Model.savePayload pk m none false = m.attributes
      simp only [Model.savePayload]
      simp [mergeMap]
  · intro hn hp
    subst hp
    simp [Model.saveMethod, hn]

/-- C6 witness: a persisted entity `{id: 1}` under patch mode with explicit
attributes `{name:"b"}`, and a fresh entity under POST. -/
theorem save_payload_and_verb_selection_witness :
    Model.savePayload "id"
        { attributes := [("id", .num 1)], committedAttributes := [("id", .num 1)],
          optimisticId := "i_1" } (some [("name", .str "b")]) true = [("name", .str "b")] ∧
      Model.saveMethod "id"
        { attributes := [("id", .num 1)], committedAttributes := [("id", .num 1)],
          optimisticId := "i_1" } true = "patch" ∧
      Model.savePayload "id"
        { attributes := [("name", .str "x")], committedAttributes := [("name", .str "x")],
          optimisticId := "i_2" } (some [("age", .num 3)]) true =
        [("name", .str "x"), ("age", .num 3)] ∧
      Model.saveMethod "id"
        { attributes := [("name", .str "x")], committedAttributes := [("name", .str "x")],
          optimisticId := "i_2" } true = "post" ∧
      Model.saveMethod "id"
        { attributes := [("id", .num 1)], committedAttributes := [("id", .num 1)],
          optimisticId := "i_1" } false = "put" := by
  refine ⟨((save_payload_and_verb_selection "id"
      { attributes := [("id", .num 1)], committedAttributes := [("id", .num 1)],
        optimisticId := "i_1" } [("name", .str "b")] true).1 rfl rfl).1,
    ((save_payload_and_verb_selection "id"
      { attributes := [("id", .num 1)], committedAttributes := [("id", .num 1)],
        optimisticId := "i_1" } [] true).1 rfl rfl).2,
    ((save_payload_and_verb_selection "id"
      { attributes := [("name", .str "x")], committedAttributes := [("name", .str "x")],
        optimisticId := "i_2" } [("age", .num 3)] true).2.2.1 rfl).1.trans rfl,
    ((save_payload_and_verb_selection "id"
      { attributes := [("name", .str "x")], committedAttributes := [("name", .str "x")],
        optimisticId := "i_2" } [] true).2.2.1 rfl).2.2,
    (save_payload_and_verb_selection "id"
      { attributes := [("id", .num 1)], committedAttributes := [("id", .num 1)],
        optimisticId := "i_1" } [] false).2.2.2.2 rfl rfl⟩

/-- C1 counterexample: an optimistic save of the model `{a:1}` is issued
(snapshot `{a:1}`); while it is in flight the caller sets a fresh key
`extra`; the request fails and the rollback `this.set(currentAttributes)`
merges the snapshot back — the key `extra`, absent from the snapshot,
survives in the working state, so working is not deep-equal to the
snapshot. -/
theorem optimistic_save_rollback_counterexample :
    hasKeyV (Model.saveFailure [("a", Value.num 1)]
        (Model.set
          { attributes := [("a", .num 1)], committedAttributes := [("a", .num 1)],
            optimisticId := "i_1" }
          [("extra", .num 2)])).attributes "extra" = true ∧
      hasKeyV [("a", Value.num 1)] "extra" = false ∧
      isEqual
        (.obj (Model.saveFailure [("a", Value.num 1)]
          (Model.set
            { attributes := [("a", .num 1)], committedAttributes := [("a", .num 1)],
              optimisticId := "i_1" }
            [("extra", .num 2)])).attributes)
        (.obj [("a", Value.num 1)]) = false := by
  refine ⟨rfl, rfl, ?_⟩
  simp [Model.saveFailure, Model.set, mergeMap, setKeyV, isEqual, objSubset, hasKeyV, lookupV]

/-- C1 amended: the failure rollback `this.set(currentAttributes)` merges
the snapshot over the in-flight working state: every key of the snapshot
is restored to its snapshot value (undoing the optimistic apply and any
in-flight mutation of those keys), while keys absent from the snapshot
keep their in-flight values — they are not removed. -/
theorem optimistic_save_rollback_is_merge (current : Fields) (m : Model)
    (hnd : nodupKeys current = true) :
    (∀ k, hasKeyV current k = true →
        lookupV (Model.saveFailure current m).attributes k = lookupV current k) ∧
      (∀ k, hasKeyV current k = false →
        lookupV (Model.saveFailure current m).attributes k = lookupV m.attributes k) ∧
      (∀ k, hasKeyV (Model.saveFailure current m).attributes k =
        (hasKeyV m.attributes k || hasKeyV current k)) := by
  refine ⟨fun k hk => ?_, fun k hk => ?_, fun k => ?_⟩
  · show lookupV (mergeMap m.attributes current) k = _
    exact lookupV_mergeMap_of_hasKey hnd _ hk
  · show lookupV (mergeMap m.attributes current) k = _
    exact lookupV_mergeMap_of_not_hasKey _ hk
  · show hasKeyV (mergeMap m.attributes current) k = _
    exact hasKeyV_mergeMap _ _ _

/-- C1 amended, witness: the counterexample scenario, where the snapshot
key `a` is restored and the in-flight key `extra` survives. -/
theorem optimistic_save_rollback_is_merge_witness :
    lookupV (Model.saveFailure [("a", Value.num 1)]
        { attributes := [("a", .num 5), ("extra", .num 2)],
          committedAttributes := [("a", .num 1)], optimisticId := "i_1" }).attributes "a" =
      .num 1 ∧
      hasKeyV (Model.saveFailure [("a", Value.num 1)]
        { attributes := [("a", .num 5), ("extra", .num 2)],
          committedAttributes := [("a", .num 1)], optimisticId := "i_1" }).attributes "extra" =
        true := by
  refine ⟨((optimistic_save_rollback_is_merge [("a", Value.num 1)]
    { attributes := [("a", .num 5), ("extra", .num 2)],
      committedAttributes := [("a", .num 1)], optimisticId := "i_1" } rfl).1 "a" rfl).trans rfl,
    ?_⟩
  rw [(optimistic_save_rollback_is_merge [("a", Value.num 1)]
    { attributes := [("a", .num 5), ("extra", .num 2)],
      committedAttributes := [("a", .num 1)], optimisticId := "i_1" } rfl).2.2 "extra"]
  rfl

/-- C9: a successful save with `keepChanges = false` leaves no pending
changes and commits the server response merged over the attributes present
at response time: in-flight edits are neither rolled back nor kept
pending — they become part of the committed state wherever the response
does not overwrite them. -/
theorem save_success_commits_merged_state (current : Fields) (m : Model) (data : Fields)
    (h1 : wellKeyedFields m.attributes = true) (h2 : wellKeyedFields data = true) :
    (Model.saveSuccess current m data false).hasChanges none = false ∧
      (Model.saveSuccess current m data false).committedAttributes =
        mergeMap m.attributes data ∧
      (Model.saveSuccess current m data false).attributes = mergeMap m.attributes data := by
  have hstate : Model.saveSuccess current m data false =
      { attributes := mergeMap m.attributes data,
        committedAttributes := mergeMap m.attributes data,
        optimisticId := m.optimisticId } := by
    simp [Model.saveSuccess, Model.set, Model.commitChanges]
  rw [hstate]
  refine ⟨?_, rfl, rfl⟩
  have hwk : wellKeyedFields (mergeMap m.attributes data) = true :=
    wellKeyedFields_mergeMap h1 h2
  simp [Model.hasChanges, Model.changedAttributes, getChangedAttributesBetween_self hwk]

/-- C9 witness: an entity saved as `{id:1, name:"a"}` whose `name` was
edited to `"b"` while the request was in flight, with server response
`{id:1}`: afterwards `hasChanges` is false and the committed state is
`{id:1, name:"b"}`. -/
theorem save_success_commits_merged_state_witness :
    (Model.saveSuccess [("id", Value.num 1), ("name", Value.str "a")]
        { attributes := [("id", .num 1), ("name", .str "b")],
          committedAttributes := [("id", .num 1), ("name", .str "a")],
          optimisticId := "i_1" } [("id", .num 1)] false).hasChanges none = false ∧
      (Model.saveSuccess [("id", Value.num 1), ("name", Value.str "a")]
        { attributes := [("id", .num 1), ("name", .str "b")],
          committedAttributes := [("id", .num 1), ("name", .str "a")],
          optimisticId := "i_1" } [("id", .num 1)] false).committedAttributes =
        [("id", .num 1), ("name", .str "b")] := by
  have h := save_success_commits_merged_state [("id", Value.num 1), ("name", Value.str "a")]
    { attributes := [("id", .num 1), ("name", .str "b")],
      committedAttributes := [("id", .num 1), ("name", .str "a")],
      optimisticId := "i_1" } [("id", .num 1)]
    (by simp [wellKeyedFields, wellKeyedV, hasKeyV])
    (by simp [wellKeyedFields, wellKeyedV, hasKeyV])
  exact ⟨h.1, h.2.1.trans rfl⟩

/-- C8: destroying a persisted, owned entity with `optimistic = true`
issues the DELETE and removes the entity from its owning collection before
the request settles; if the request fails the entity is re-added appended
at the end of the member sequence, not at its original position. -/
theorem destroy_optimistic_remove_then_append (pk : String) (m : Model)
    (pre post : List Model) (hnew : Model.isNew pk m = false)
    (hpre : ∀ x ∈ pre, beqModel x m = false) :
    (Model.destroy pk m (some (pre ++ m :: post)) true).requested = true ∧
      (Model.destroy pk m (some (pre ++ m :: post)) true).immediate =
        some (pre ++ post) ∧
      (Model.destroy pk m (some (pre ++ m :: post)) true).afterFailure =
        some ((pre ++ post) ++ [m]) := by
  simp only [Model.destroy, hnew, Bool.false_eq_true, if_false, if_true,
    removeModel_append_of_not_mem hpre]
  simp

/-- C8 witness: the persisted entity `{id:2}` sitting between two other
members is removed before the request settles and re-added at the end on
failure. -/
theorem destroy_optimistic_remove_then_append_witness :
    (Model.destroy "id"
        { attributes := [("id", Value.num 2)], committedAttributes := [("id", Value.num 2)],
          optimisticId := "i_2" }
        (some
          [{ attributes := [("id", Value.num 1)],
             committedAttributes := [("id", Value.num 1)], optimisticId := "i_1" },
           { attributes := [("id", Value.num 2)],
             committedAttributes := [("id", Value.num 2)], optimisticId := "i_2" },
           { attributes := [("id", Value.num 3)],
             committedAttributes := [("id", Value.num 3)], optimisticId := "i_3" }])
        true).afterFailure =
      some
        [{ attributes := [("id", Value.num 1)],
           committedAttributes := [("id", Value.num 1)], optimisticId := "i_1" },
         { attributes := [("id", Value.num 3)],
           committedAttributes := [("id", Value.num 3)], optimisticId := "i_3" },
         { attributes := [("id", Value.num 2)],
           committedAttributes := [("id", Value.num 2)], optimisticId := "i_2" }] := by
  have h := destroy_optimistic_remove_then_append "id"
    { attributes := [("id", Value.num 2)], committedAttributes := [("id", Value.num 2)],
      optimisticId := "i_2" }
    [{ attributes := [("id", Value.num 1)], committedAttributes := [("id", Value.num 1)],
       optimisticId := "i_1" }]
    [{ attributes := [("id", Value.num 3)], committedAttributes := [("id", Value.num 3)],
       optimisticId := "i_3" }]
    rfl
    (by
      intro x hx
      rcases List.mem_singleton.mp hx with rfl
      simp [beqModel, beqV])
  exact h.2.2

set_option maxRecDepth 8000 in
/-- C5: `Collection#set` does not use the configured primary key to read
incoming resources — it reads the literal `id` property (`r.id`,
`resource.id`) while member ids go through `primaryKey`.  With
`primaryKey = "uuid"`, a collection holding the member `{uuid:"u1"}`
(optimisticId `i_1`) reconciled against the same resource `{uuid:"u1"}`
first removes the member (its id `"u1"` is not among the `undefined`
incoming `r.id`s) and then appends a freshly built model (optimisticId
`i_5`) because the lookup by `resource.id = undefined` finds nothing —
instead of matching and merging the member in place as the claim
requires. -/
theorem collection_set_ignores_custom_primary_key :
    (Collection.set "uuid" 5
      [{ attributes := [("uuid", Value.str "u1")],
         committedAttributes := [("uuid", Value.str "u1")], optimisticId := "i_1" }]
      [[("uuid", Value.str "u1")]] true true true).models =
      [{ attributes := [("uuid", Value.str "u1")],
         committedAttributes := [("uuid", Value.str "u1")], optimisticId := "i_5" }] := by
  simp [Collection.set, Collection.ids, Collection.getById, Collection.difference,
    Collection.removeIds, Collection.removeById, Collection.setStep, Collection.build,
    Model.id, Model.has, Model.get, beqV, truthy, isNumOrStr, lookupV, hasKeyV, mergeMap]
  rfl

/-- C2 counterexample: `a = {x:1}`, `b = {}` — a deleted key.  The diff is
`{x: undefined}`; applying it back yields `{x: undefined}`, which lodash
`isEqual` distinguishes from `{}` (the key is present), so
`applyPatchChanges(a, getChangesBetween(a, b))` is not deep-equal to `b`. -/
theorem diff_apply_roundtrip_counterexample :
    isEqual
      (.obj (applyPatchChanges [("x", Value.num 1)]
        (getChangesBetween [("x", Value.num 1)] [])))
      (.obj ([] : Fields)) = false := by
  simp [applyPatchChanges, getChangesBetween, changeValue, getChangedAttributesBetween,
    keyUnion, dedupFirst, lookupV, isEqual, mergeInto, hasKeyV, setKeyV, isMergeableObject,
    valFields, objSubset]

/-- C2 amended: for plain structures with duplicate-free keys, no stored
`undefined` values, and no deleted keys (every key of `a` present in `b`,
recursively at object/object positions — a deletion breaks the round
trip, see the counterexample), applying the computed diff back onto the
source reconstructs the target up to lodash `isEqual`; and the diff for a
changed array-valued field contains the entire new array, never an
element-level delta. -/
theorem diff_apply_roundtrip (a b : Fields)
    (ha : wellKeyedFields a = true) (hna : noUndefFields a = true)
    (hb : wellKeyedFields b = true) (hnb : noUndefFields b = true)
    (hdel : noDelFields a b = true) :
    isEqual (.obj (applyPatchChanges a (getChangesBetween a b))) (.obj b) = true ∧
      ∀ (k : String) (ys : List Value), lookupV b k = .arr ys →
        isEqual (lookupV a k) (.arr ys) = false →
        lookupV (getChangesBetween a b) k = .arr ys := by
  constructor
  · exact diff_roundtrip_aux (sizeOf a + 1) a b (by omega) ha hna hb hnb hdel
  · intro k ys hbk hne
    have hmem : k ∈ getChangedAttributesBetween a b := by
      rw [mem_getChangedAttributesBetween]
      refine ⟨Or.inr (hasKeyV_of_lookupV_ne_undef ?_), ?_⟩
      · rw [hbk]
        exact fun h => Value.noConfusion h
      · rw [hbk]
        exact hne
    rw [lookupV_getChangesBetween, if_pos hmem, hbk]
    exact changeValue_target_not_obj fun t => by simp

set_option maxRecDepth 8000 in
/-- C2 amended, witness: `a = {x:1, m:{y:2}}`,
`b = {x:1, m:{y:3}, z:[7]}`.  Applying the diff reconstructs `b`, and the
changed array field `z` appears in the diff as the whole new array. -/
theorem diff_apply_roundtrip_witness :
    isEqual
      (.obj (applyPatchChanges
        [("x", Value.num 1), ("m", Value.obj [("y", Value.num 2)])]
        (getChangesBetween
          [("x", Value.num 1), ("m", Value.obj [("y", Value.num 2)])]
          [("x", Value.num 1), ("m", Value.obj [("y", Value.num 3)]),
            ("z", Value.arr [Value.num 7])])))
      (.obj [("x", Value.num 1), ("m", Value.obj [("y", Value.num 3)]),
        ("z", Value.arr [Value.num 7])]) = true ∧
      lookupV (getChangesBetween
        [("x", Value.num 1), ("m", Value.obj [("y", Value.num 2)])]
        [("x", Value.num 1), ("m", Value.obj [("y", Value.num 3)]),
          ("z", Value.arr [Value.num 7])]) "z" = .arr [Value.num 7] := by
  have h := diff_apply_roundtrip
    [("x", Value.num 1), ("m", Value.obj [("y", Value.num 2)])]
    [("x", Value.num 1), ("m", Value.obj [("y", Value.num 3)]),
      ("z", Value.arr [Value.num 7])]
    (by simp [wellKeyedFields, wellKeyedV, hasKeyV])
    (by simp [noUndefFields, noUndefV])
    (by simp [wellKeyedFields, wellKeyedV, hasKeyV])
    (by simp [noUndefFields, noUndefV])
    (by simp [noDelFields, noDelValue, hasKeyV, lookupV])
  refine ⟨h.1, h.2 "z" [Value.num 7] rfl ?_⟩
  simp [lookupV, isEqual.eq_def]

end MobxRest
